import Mathlib

/-!
Verification of the project-tree node model of
`src/plugins/projectexplorer/projectnodes.cpp` (Qt Creator).

Shallow embedding conventions:
* File-system paths (`Utils::FileName`, absolute paths) are modelled as lists
  of path segments; segment names are abstracted to `Nat` identifiers, and the
  path order used by `Node::sortByPath` (Qt string comparison on absolute
  paths) becomes the lexicographic order on segment lists.
  `QFileInfo::absolutePath` (the parent directory) becomes `List.dropLast`,
  and `FileName::appendPath` becomes appending one segment.
* `FileNode` carries only its path: the fields of `FileNode` that none of the
  verified operations consult (file type, generated flag, line) are omitted.
* `FolderNode` carries the fields consulted by the verified operations:
  path, the virtual-folder bucket, priority, display name, and the two owned
  child collections `m_fileNodes` / `m_folderNodes`.
* Pointer identity is erased: `QSet<Node *>` keep sets become boolean
  predicates on node values, pointer comparison becomes structural equality,
  and `delete` (destruction) is modelled as a ghost output listing the
  destroyed nodes.

The file is organized as definitions first (the embedding of the code),
then the theorems about them.
-/

namespace QtcNodes

/-- A path segment (directory or file name component), abstracted to `Nat`. -/
abbrev Seg := Nat

/-- An absolute path, as its list of segments. -/
abbrev Path := List Seg

/-- `ProjectExplorer::FileNode`, reduced to the fields consulted by the
operations verified here (its absolute file path). -/
structure FileN where
  path : Path
deriving DecidableEq, Repr

/-- `ProjectExplorer::FolderNode`: path, node-type bucket (`virt` is true for
`VirtualFolderNode`), priority, display name, and the two sorted child
collections `m_fileNodes` and `m_folderNodes`. -/
inductive FolderT : Type where
| mk (path : Path) (virt : Bool) (prio : Int) (dname : Path)
     (files : List FileN) (folders : List FolderT) : FolderT

/-- `Node::filePath()` for a folder. -/
def FolderT.path : FolderT → Path
| .mk p _ _ _ _ _ => p

/-- Virtual-folder bucket of a folder node. -/
def FolderT.virt : FolderT → Bool
| .mk _ v _ _ _ _ => v

/-- `Node::priority()` for a folder. -/
def FolderT.prio : FolderT → Int
| .mk _ _ pr _ _ _ => pr

/-- `FolderNode::displayName()`. -/
def FolderT.dname : FolderT → Path
| .mk _ _ _ d _ _ => d

/-- `FolderNode::fileNodes()` (the direct child files `m_fileNodes`). -/
def FolderT.files : FolderT → List FileN
| .mk _ _ _ _ fs _ => fs

/-- `FolderNode::folderNodes()` (the direct child folders `m_folderNodes`). -/
def FolderT.folders : FolderT → List FolderT
| .mk _ _ _ _ _ sub => sub

mutual
/-- Structural equality test on folder nodes (the model of `FolderNode *`
pointer comparison). -/
def FolderT.beq : FolderT → FolderT → Bool
| .mk p v pr dn fs sub, .mk p2 v2 pr2 dn2 fs2 sub2 =>
    (p = p2 : Bool) && (v = v2 : Bool) && (pr = pr2 : Bool) &&
      (dn = dn2 : Bool) && (fs = fs2 : Bool) && FolderT.beqL sub sub2

/-- Structural equality test on lists of folder nodes. -/
def FolderT.beqL : List FolderT → List FolderT → Bool
| [], [] => true
| x :: xs, y :: ys => FolderT.beq x y && FolderT.beqL xs ys
| _, _ => false
end

mutual
/-- `FolderNode::recursiveFileNodes()`: direct files followed by the files of
every subfolder, depth first. -/
def recursiveFileNodes : FolderT → List FileN
| .mk _ _ _ _ fs sub => fs ++ recursiveFileNodesL sub

/-- `recursiveFileNodes` accumulated over a list of folders. -/
def recursiveFileNodesL : List FolderT → List FileN
| [] => []
| t :: ts => recursiveFileNodes t ++ recursiveFileNodesL ts
end

/-! ## Orders on nodes

`Node::sortByPath` is in the source (`projectnodes.cpp:197`); the
`operator<` overloads on `FileNode *` and `FolderNode *` used by the sorted
insertions live in `projectnodes.h`, which is not part of the provided
sources, so they are modelled from the spec. -/

/-- `Node::sortByPath` (projectnodes.cpp:197): compare two nodes by their
absolute file path. Stated here on file nodes, as `Bool` for executability. -/
def sortByPath (a b : FileN) : Bool := decide (a.path < b.path)

/-- Modelled from the spec: the `operator<` on `FileNode *` declared in
`projectnodes.h` (missing from the sources); per the spec, file nodes are
ordered by file-path order. -/
def fileLt (a b : FileN) : Bool := decide (a.path < b.path)

/-- The composite sort key of a folder node: node-type-derived bucket
(virtual folders first), then priority, then display name. -/
def folderKey (t : FolderT) : Nat × Int × Path :=
  ((if t.virt then 0 else 1), t.prio, t.dname)

/-- Lexicographic comparison of a triple of linearly ordered components. -/
def Lex3 {α β γ : Type} [LinearOrder α] [LinearOrder β] [LinearOrder γ]
    (x y : α × β × γ) : Prop :=
  x.1 < y.1 ∨ (x.1 = y.1 ∧ (x.2.1 < y.2.1 ∨ (x.2.1 = y.2.1 ∧ x.2.2 < y.2.2)))

instance {α β γ : Type} [LinearOrder α] [LinearOrder β] [LinearOrder γ]
    (x y : α × β × γ) : Decidable (Lex3 x y) := by
  unfold Lex3; infer_instance

/-- Modelled from the spec: the `operator<` on `FolderNode *` declared in
`projectnodes.h` (missing from the sources); per the spec, folder nodes are
ordered by a composite key: node-type-derived bucket (all virtual folders
before real folders), then numeric priority, then display name.  The spec
does not fix the direction of the priority comparison; ascending is chosen,
and no verified property depends on that choice. -/
def folderLt (a b : FolderT) : Bool :=
  decide (Lex3 (folderKey a) (folderKey b))

/-! ## Sorted insertion and the removal walk

`FolderNode::addFileNodes` (projectnodes.cpp:580) and
`FolderNode::addFolderNodes` (projectnodes.cpp:647) insert each node at the
position found by `std::lower_bound` with the node order, short-cutting to an
append when the list is empty or the last element is below the new node.
`FolderNode::removeFileNodes` (projectnodes.cpp:616) and
`FolderNode::removeFolderNodes` (projectnodes.cpp:685) sort the nodes to
remove and erase them in one forward walk over the child list.  The C++ is
textually duplicated for the two collections; here one generic definition is
instantiated with the two orders (and with the structural equality standing
in for pointer comparison). -/

/-- `std::lower_bound` insertion: insert `x` before the first element that is
not below `x` in the strict order `lt`. -/
def insertLowerBound (lt : α → α → Bool) (x : α) : List α → List α
| [] => [x]
| y :: ys => if lt y x then y :: insertLowerBound lt x ys else x :: y :: ys

/-- One iteration of the insertion loop of `FolderNode::addFileNodes` /
`addFolderNodes`: append when the list is empty or its last element is below
the new node, otherwise insert at the `std::lower_bound` position. -/
def insertNodeSorted (lt : α → α → Bool) (cur : List α) (x : α) : List α :=
  match cur.getLast? with
  | none => [x]
  | some l => if lt l x then cur ++ [x] else insertLowerBound lt x cur

/-- The insertion loop of `FolderNode::addFileNodes` / `addFolderNodes` over
the list of nodes to add (the empty-input early return is the identity). -/
def addNodesSorted (lt : α → α → Bool) (toAdd cur : List α) : List α :=
  toAdd.foldl (insertNodeSorted lt) cur

/-- The removal walk of `FolderNode::removeFileNodes` / `removeFolderNodes`:
for each node of the (already sorted) removal list, advance through the child
list to the next occurrence (`beq` is the pointer comparison) and erase it.
`acc` holds the already retained prefix, reversed.  Running past the end of
the child list is undefined behaviour in the C++ (a `QTC_ASSERT` only logs);
the model retains what was kept so far. -/
def eraseWalkAux (beq : α → α → Bool) (acc cur toRemove : List α) : List α :=
  match toRemove, cur with
  | [], _ => acc.reverse ++ cur
  | _ :: _, [] => acc.reverse
  | r :: rs, x :: xs =>
      if beq x r then eraseWalkAux beq acc xs rs
      else eraseWalkAux beq (x :: acc) xs (r :: rs)

/-- The removal walk started at the head of the child list. -/
def eraseWalk (beq : α → α → Bool) (cur toRemove : List α) : List α :=
  eraseWalkAux beq [] cur toRemove

/-- Insert `x` into `l` before the first element it is `le`-below or equal
to (one step of the sort modelling `Utils::sort`). -/
def sortedInsert (le : α → α → Bool) (x : α) : List α → List α
| [] => [x]
| y :: ys => if le x y then x :: y :: ys else y :: sortedInsert le x ys

/-- Model of `Utils::sort` (`std::sort`) with comparator-induced non-strict
order `le`: a structurally recursive insertion sort (so that terms reduce in
the kernel).  It produces a list sorted by `le` with the same elements; for
the node orders used here ties are structurally equal nodes, so the result
agrees with any correct sort. -/
def sortNodes (le : α → α → Bool) : List α → List α
| [] => []
| x :: xs => sortedInsert le x (sortNodes le xs)

/-- `FolderNode::removeFileNodes` / `removeFolderNodes` on the child list:
sort the nodes to remove with the node order (`Utils::sort`), then erase
them in one forward walk. -/
def removeNodesSorted (beq : α → α → Bool) (lt : α → α → Bool)
    (toRemove cur : List α) : List α :=
  eraseWalk beq cur (sortNodes (fun a b => !(lt b a)) toRemove)

/-- Structural equality on file nodes as a `Bool` (the model of `FileNode *`
pointer comparison). -/
def fileBeq (a b : FileN) : Bool := decide (a = b)

/-- `FolderNode::addFileNodes` (projectnodes.cpp:580), on the `m_fileNodes`
collection. -/
def addFileNodes (files cur : List FileN) : List FileN :=
  addNodesSorted fileLt files cur

/-- `FolderNode::removeFileNodes` (projectnodes.cpp:616), on the
`m_fileNodes` collection. -/
def removeFileNodes (files cur : List FileN) : List FileN :=
  removeNodesSorted fileBeq fileLt files cur

/-- `FolderNode::addFolderNodes` (projectnodes.cpp:647), on the
`m_folderNodes` collection. -/
def addFolderNodes (subFolders cur : List FolderT) : List FolderT :=
  addNodesSorted folderLt subFolders cur

/-- `FolderNode::removeFolderNodes` (projectnodes.cpp:685), on the
`m_folderNodes` collection. -/
def removeFolderNodes (subFolders cur : List FolderT) : List FolderT :=
  removeNodesSorted FolderT.beq folderLt subFolders cur

/-! ## The mutation primitives as operations on one folder's collections
(for the sortedness invariant). -/

/-- The two child collections of one `FolderNode`. -/
structure FolderChildren where
  fileNodes : List FileN
  folderNodes : List FolderT

/-- One mutation of a folder's child collections:
`addFileNodes` / `removeFileNodes` / `addFolderNodes` / `removeFolderNodes`. -/
inductive FolderOp : Type where
| addFiles (l : List FileN) : FolderOp
| removeFiles (l : List FileN) : FolderOp
| addFolders (l : List FolderT) : FolderOp
| removeFolders (l : List FolderT) : FolderOp

/-- Apply one mutation primitive to a folder's child collections. -/
def applyFolderOp (st : FolderChildren) : FolderOp → FolderChildren
| .addFiles l => ⟨addFileNodes l st.fileNodes, st.folderNodes⟩
| .removeFiles l => ⟨removeFileNodes l st.fileNodes, st.folderNodes⟩
| .addFolders l => ⟨st.fileNodes, addFolderNodes l st.folderNodes⟩
| .removeFolders l => ⟨st.fileNodes, removeFolderNodes l st.folderNodes⟩

/-- Apply a sequence of mutation primitives, oldest first. -/
def applyFolderOps (st : FolderChildren) (ops : List FolderOp) : FolderChildren :=
  ops.foldl applyFolderOp st

/-- `l` is sorted with respect to the strict order `lt`: no later element is
below an earlier one. -/
def SortedBy (lt : α → α → Bool) (l : List α) : Prop :=
  l.Pairwise (fun a b => lt b a = false)

/-! ## `FolderNode::buildTree` (projectnodes.cpp:448)

The helpers `compareSortedLists` and `subtractSortedList` are templates from
`projectnodes.h`, which is not among the provided sources; they are modelled
from the spec (a merge-style comparison of two path-sorted lists into the
partitions only-in-old and only-in-new).  `subtractSortedList` is used by
`buildTree` only to destroy the incoming duplicate `FileNode` objects for
paths already present; destruction of values that never enter the tree has
no observable effect in this model and is omitted. -/

/-- The comparator passed to `Utils::sort` in `buildTree`
(`Node::sortByPath`), as a non-strict comparison for `List.mergeSort`. -/
def fileSortLe (a b : FileN) : Bool := !(sortByPath b a)

/-- Modelled from the spec: `ProjectExplorer::compareSortedLists`
(template in `projectnodes.h`, missing from the sources): a merge-style walk
over two lists sorted by `sortByPath`, returning the partition
(only in the old list, only in the new list); elements with equal paths are
treated as present in both and belong to neither partition. -/
def compareSortedLists : List FileN → List FileN → List FileN × List FileN
| [], news => ([], news)
| o :: olds, [] => (o :: olds, [])
| o :: olds, n :: news =>
    if sortByPath o n then
      let r := compareSortedLists olds (n :: news)
      (o :: r.1, r.2)
    else if sortByPath n o then
      let r := compareSortedLists (o :: olds) news
      (r.1, n :: r.2)
    else
      compareSortedLists olds news

/-- The priority a plain `FolderNode` is constructed with
(`DefaultFolderPriority` from the missing `projectnodes.h`); its concrete
value is immaterial to every verified property. -/
def defaultFolderPriority : Int := 0

/-- The folder node created by `recursiveFindOrCreateFolderNode` for a
missing path segment: a plain (non-virtual) `FolderNode` at the accumulated
path whose display name is set to the segment. -/
def newFolder (p : Path) (part : Seg) : FolderT :=
  FolderT.mk p false defaultFolderPriority [part] [] []

/-- Model of the external `QDir::relativeFilePath` computation at the top of
`recursiveFindOrCreateFolderNode`, on segment paths: when `base` is a prefix
of `dir` (including the empty or root base) the result is the remaining
segments of `dir`.  Qt resolves a base that is not a prefix through `..`
segments; that external-library behaviour is not modelled (the fallback
returns `dir`), and no verified property depends on it. -/
def relativeParts (base dir : Path) : List Seg :=
  if base.isPrefixOf dir then dir.drop base.length else dir

mutual
/-- The per-segment walk of `recursiveFindOrCreateFolderNode`
(projectnodes.cpp:416), fused with the file insertion that `buildTree`
performs at the folder the walk returns: descend the remaining `parts`,
creating missing folders (inserted sorted, as `addFolderNodes` does), and
insert the file at the final folder (as `addFileNodes` does).  `cur` is the
accumulated lookup path, seeded with the base directory.  The C++ attaches a
newly created empty folder and then keeps mutating it in place; building the
remaining chain first and inserting the finished child is equivalent because
the insertion position depends only on the child's sort key, which the
descent never changes. -/
def addFileAtParts : List Seg → FolderT → Path → FileN → FolderT
| [], .mk p v pr dn fs sub, _, fn =>
    .mk p v pr dn (addNodesSorted fileLt [fn] fs) sub
| part :: rest, .mk p v pr dn fs sub, cur, fn =>
    let next := cur ++ [part]
    if sub.any (fun c => c.path = next) then
      .mk p v pr dn fs (addIntoFirst rest sub next fn)
    else
      .mk p v pr dn fs
        (addNodesSorted folderLt [addFileAtParts rest (newFolder next part) next fn] sub)
termination_by parts _t _cur _fn => (parts.length, 0)

/-- Continue the walk of `addFileAtParts` inside the first child folder whose
path is the accumulated lookup path (`FolderNode::folderNode`,
projectnodes.cpp:409, is a first-match linear scan). -/
def addIntoFirst : List Seg → List FolderT → Path → FileN → List FolderT
| _, [], _, _ => []
| rest, c :: cs, next, fn =>
    if c.path = next then addFileAtParts rest c next fn :: cs
    else c :: addIntoFirst rest cs next fn
termination_by rest cs _next _fn => (rest.length, cs.length + 1)
end

/-- Step 3 of `buildTree`: place one added file below the invocation root,
resolving its parent directory relative to the base directory
(`overrideBaseDir`, or the root's own path when that is empty). -/
def addFileToTree (b : Path) (t : FolderT) (fn : FileN) : FolderT :=
  let base := if b = [] then t.path else b
  addFileAtParts (relativeParts base fn.path.dropLast) t base fn

/-- Removal of the files of the `deleted` partition from one folder's direct
file list: each file equal to a pending deleted node is removed and consumes
that node.  Returns the remaining files, the still-pending deleted nodes,
and whether anything was removed here. -/
def removeListed : List FileN → List FileN → List FileN × List FileN × Bool
| [], del => ([], del, false)
| f :: fs, del =>
    if f ∈ del then
      let r := removeListed fs (del.erase f)
      (r.1, r.2.1, true)
    else
      let r := removeListed fs del
      (f :: r.1, r.2.1, r.2.2)

mutual
/-- Step 4 of `buildTree` (projectnodes.cpp:477): remove every file of the
`deleted` partition from the folder that actually contains it, then walk
upward and remove every folder that has become empty of both files and
folders, stopping at (and never removing) the invocation root.  The C++
iterates the deleted files grouped by parent (in unspecified `QHash` order)
and prunes empty ancestors with an explicit upward loop; this single
bottom-up pass computes the same tree for every grouping order: a folder
disappears exactly when the subtree below it saw a deletion (it is
`affected`) and it ends up with no files and no subfolders.  Returns the new
folder, the still-pending deleted nodes, and the `affected` flag. -/
def removeDeletedAndPrune : FolderT → List FileN → FolderT × List FileN × Bool
| .mk p v pr dn fs sub, del =>
    let rf := removeListed fs del
    let rs := removeDeletedAndPruneL sub rf.2.1
    (.mk p v pr dn rf.1 rs.1, rs.2.1, rf.2.2 || rs.2.2)

/-- `removeDeletedAndPrune` over a child-folder list, dropping every child
that was affected by a deletion and became empty. -/
def removeDeletedAndPruneL : List FolderT → List FileN → List FolderT × List FileN × Bool
| [], del => ([], del, false)
| c :: cs, del =>
    let rc := removeDeletedAndPrune c del
    let rs := removeDeletedAndPruneL cs rc.2.1
    let dropC := rc.2.2 && rc.1.files.isEmpty && rc.1.folders.isEmpty
    ((if dropC then rs.1 else rc.1 :: rs.1), rs.2.1, rc.2.2 || rs.2.2)
end

/-- Steps 1 and 2 of `buildTree`: sort the current recursive file list and
the incoming list by path and compute the `(deleted, added)` partitions. -/
def buildTreeDiff (t : FolderT) (files : List FileN) : List FileN × List FileN :=
  compareSortedLists (sortNodes fileSortLe (recursiveFileNodes t))
    (sortNodes fileSortLe files)

/-- `FolderNode::buildTree` (projectnodes.cpp:448): diff the current
recursive file list against `files`, insert the added files (creating folder
chains on demand), remove the deleted files and prune emptied folder chains
up to (but excluding) the invocation root. -/
def buildTree (t : FolderT) (files : List FileN) (overrideBaseDir : Path) : FolderT :=
  let da := buildTreeDiff t files
  let t1 := da.2.foldl (addFileToTree overrideBaseDir) t
  (removeDeletedAndPrune t1 da.1).1

/-! ## `trim` (projectnodes.cpp:192 and 342)

The keep set `QSet<Node *>` becomes a pair of boolean predicates on node
values (pointer identity is erased).  The C++ `trim` returns `nullptr` to
mean "keep me" and `this` to mean "I can be dropped", mutating folder
children in place; the model returns the updated node together with the
drop flag, plus a wrapper reproducing the raw return value. -/

/-- The keep set passed to `trim`: membership tests for file and folder
nodes. -/
structure Keepers where
  file : FileN → Bool
  folder : FolderT → Bool

/-- `Node::trim` (projectnodes.cpp:192) on a leaf file node:
`keepers.contains(this) ? nullptr : this` — `none` (null) when the node is
in the keep set, `some` (itself, meaning droppable) otherwise. -/
def trimFile (k : Keepers) (n : FileN) : Option FileN :=
  if k.file n then none else some n

mutual
/-- `FolderNode::trim` (projectnodes.cpp:342): early null (keep, untouched)
when this folder is in the keep set; otherwise trim the file children and
remove the droppable ones, trim the folder children and remove the droppable
ones, and report droppable (`this`) exactly when no child survived.
Returns (folder after mutation, drop flag). -/
def trimFolder (k : Keepers) : FolderT → FolderT × Bool
| .mk p v pr dn fs sub =>
    if k.folder (.mk p v pr dn fs sub) then (.mk p v pr dn fs sub, false)
    else
      let droppedFiles := fs.filter (fun f => (trimFile k f).isSome)
      let keepThisF := decide (fs.length ≠ droppedFiles.length)
      let fs1 := removeFileNodes droppedFiles fs
      let trimmed := trimFolderL k sub
      let droppedFolders := (trimmed.filter (fun r => r.2)).map (fun r => r.1)
      let keepThisD := decide (trimmed.length ≠ droppedFolders.length)
      let sub1 := removeFolderNodes droppedFolders (trimmed.map (fun r => r.1))
      (.mk p v pr dn fs1 sub1, !(keepThisF || keepThisD))

/-- `trim` applied to each child folder in order (the
`Utils::transform(m_folderNodes, ...)` pass). -/
def trimFolderL (k : Keepers) : List FolderT → List (FolderT × Bool)
| [] => []
| c :: cs => trimFolder k c :: trimFolderL k cs
end

/-- The raw C++ return value of `FolderNode::trim`: `some` of the (mutated)
folder when it reports droppable, `none` (null) when it is kept. -/
def trimRet (k : Keepers) (t : FolderT) : Option FolderT :=
  let r := trimFolder k t
  if r.2 then some r.1 else none

mutual
/-- The node survives trimming with keep set `k`: it is in the keep set
itself, or (for folders) some direct file child is kept or some direct
folder child survives.  This is the specification-level reading of the
`keepThis` bookkeeping of `FolderNode::trim`. -/
def keptSpec (k : Keepers) : FolderT → Bool
| .mk p v pr dn fs sub =>
    k.folder (.mk p v pr dn fs sub) || fs.any (fun f => k.file f) ||
      keptSpecL k sub

/-- `keptSpec` over a child-folder list: some child survives. -/
def keptSpecL (k : Keepers) : List FolderT → Bool
| [] => false
| c :: cs => keptSpec k c || keptSpecL k cs
end

mutual
/-- Every folder of the subtree strictly below `t` contains at least one
file somewhere in its own subtree (no barren folder chain). -/
def noBarren : FolderT → Bool
| .mk _ _ _ _ _ sub => noBarrenL sub

/-- `noBarren` over a child-folder list. -/
def noBarrenL : List FolderT → Bool
| [] => true
| c :: cs =>
    !(recursiveFileNodes c).isEmpty && noBarren c && noBarrenL cs
end

/-! ## `FileNode::scanForFiles` (projectnodes.cpp:242 and 288)

The file system visible to the scanner: directory references resolve
(`QDir::canonicalPath`) to one of `ndirs + 1` canonical directories, each
holding a list of entries (`QDir::entryInfoList`); an entry is a
subdirectory reference or a file path, tagged with the verdict of the
version-control ignore predicate (`isVcsFileOrDirectory`).  Symlink cycles
are directory references resolving to an already visited canonical
directory.  The `QFutureInterface` becomes the pair of a presence flag and a
cancellation flag read at poll number `polls`
(`future->isCanceled()`); the floating-point progress reporting changes no
control flow or result and is omitted.  The result additionally carries two
ghost fields: the canonical directories recursed into, in order (`trace`),
and whether a cancellation poll returned true (`cancelled`). -/

/-- One directory entry met by the scanner. -/
inductive ScanEntry : Type where
| dir (ref : Nat) (vcs : Bool) : ScanEntry
| file (p : Path) (vcs : Bool) : ScanEntry

/-- The file system scanned by `scanForFilesRecursively`. -/
structure ScanFS where
  ndirs : Nat
  canon : Nat → Fin (ndirs + 1)
  entries : Fin (ndirs + 1) → List ScanEntry

/-- Result of a scan: collected file nodes, visited canonical directories,
poll counter, and the ghost trace/cancelled fields. -/
structure ScanRes (nd : Nat) where
  files : List FileN
  visited : Finset (Fin (nd + 1))
  polls : Nat
  trace : List (Fin (nd + 1))
  cancelled : Bool

mutual
/-- `scanForFilesRecursively` (projectnodes.cpp:242), fuelled: canonicalize
the directory, stop immediately when it was already visited, otherwise mark
it visited and process its entries.  `none` only when the fuel runs out.  -/
def scanDirF (fs : ScanFS) (factory : Path → FileN) (future : Bool)
    (cancel : Nat → Bool) :
    Nat → Nat → Finset (Fin (fs.ndirs + 1)) → Nat → Option (ScanRes fs.ndirs)
| 0, _, _, _ => none
| fuel + 1, ref, visited, polls =>
    let c := fs.canon ref
    if c ∈ visited then some ⟨[], visited, polls, [], false⟩
    else
      (scanEntriesF fs factory future cancel fuel (fs.entries c)
          (insert c visited) polls).map
        (fun r => ⟨r.files, r.visited, r.polls, c :: r.trace, r.cancelled⟩)
termination_by fuel _ref _visited _polls => (fuel, 0)

/-- The entry loop of `scanForFilesRecursively`: poll the cancellation flag
before each entry (returning the files accumulated so far when it is set),
skip version-control entries, recurse into subdirectories, and run the
factory on files. -/
def scanEntriesF (fs : ScanFS) (factory : Path → FileN) (future : Bool)
    (cancel : Nat → Bool) (fuel : Nat) :
    List ScanEntry → Finset (Fin (fs.ndirs + 1)) → Nat → Option (ScanRes fs.ndirs)
| [], visited, polls => some ⟨[], visited, polls, [], false⟩
| e :: es, visited, polls =>
    if future && cancel polls then some ⟨[], visited, polls + 1, [], true⟩
    else
      let polls1 := if future then polls + 1 else polls
      match e with
      | .dir ref vcs =>
          if vcs then scanEntriesF fs factory future cancel fuel es visited polls1
          else
            (scanDirF fs factory future cancel fuel ref visited polls1).bind
              (fun r1 =>
                (scanEntriesF fs factory future cancel fuel es r1.visited
                    r1.polls).map
                  (fun r2 => ⟨r1.files ++ r2.files, r2.visited, r2.polls,
                    r1.trace ++ r2.trace, r1.cancelled || r2.cancelled⟩))
      | .file p vcs =>
          if vcs then scanEntriesF fs factory future cancel fuel es visited polls1
          else
            (scanEntriesF fs factory future cancel fuel es visited polls1).map
              (fun r2 => ⟨factory p :: r2.files, r2.visited, r2.polls,
                r2.trace, r2.cancelled⟩)
termination_by es _visited _polls => (fuel, es.length + 1)
end

/-- `FileNode::scanForFiles` (projectnodes.cpp:288): run the recursive scan
with an initially empty visited set (a future is always passed), with fuel
that the termination theorem proves sufficient for every file system. -/
def scanForFiles (fs : ScanFS) (factory : Path → FileN) (cancel : Nat → Bool)
    (ref : Nat) : Option (ScanRes fs.ndirs) :=
  scanDirF fs factory true cancel (fs.ndirs + 2) ref ∅ 0

/-! ## `ProjectNode::removeProjectNodes` (projectnodes.cpp:889) and
`SessionNode::removeProjectNodes` (projectnodes.cpp:1006)

Sub-project nodes are modelled by opaque identities (`Nat`), ordered the way
`Utils::sort` orders the node pointers.  Both methods sort the list of
sub-projects to remove and erase them with one synchronized forward walk
from both `m_projectNodes` and `m_folderNodes`; the project variant
additionally destroys each removed node (`delete *projectIter`), the
session variant does not.  Destruction is the ghost second component. -/

/-- Equality of sub-project identities as a `Bool`. -/
def natBeq (a b : Nat) : Bool := decide (a = b)

/-- The two parallel collections of a `ProjectNode` / `SessionNode`. -/
structure SessColl where
  folderNodes : List Nat
  projectNodes : List Nat
deriving DecidableEq, Repr

/-- `ProjectNode::removeProjectNodes` (projectnodes.cpp:889): remove the
listed sub-projects from both collections and destroy them (the destroyed
nodes are the ghost second component). -/
def projectRemoveProjectNodes (subProjects : List Nat) (st : SessColl) :
    SessColl × List Nat :=
  if subProjects.isEmpty then (st, [])
  else
    let toRemove := sortNodes (fun a b => decide (a ≤ b)) subProjects
    (⟨eraseWalk natBeq st.folderNodes toRemove,
        eraseWalk natBeq st.projectNodes toRemove⟩,
      toRemove)

/-- `SessionNode::removeProjectNodes` (projectnodes.cpp:1006): remove the
listed sub-projects from both collections; no node is destroyed. -/
def sessionRemoveProjectNodes (subProjects : List Nat) (st : SessColl) :
    SessColl × List Nat :=
  if subProjects.isEmpty then (st, [])
  else
    let toRemove := sortNodes (fun a b => decide (a ≤ b)) subProjects
    (⟨eraseWalk natBeq st.folderNodes toRemove,
        eraseWalk natBeq st.projectNodes toRemove⟩,
      [])

/-! ## `Node::isEnabled` (projectnodes.cpp:163)

The parent chain of a node linearizes to the list of the ancestors' own
enable flags (`m_isEnabled`), nearest parent first. -/

/-- `Node::isEnabled`: false when the own flag is clear, otherwise the
parent's `isEnabled()` (true at a root, which has no parent). -/
def isEnabled (own : Bool) : List Bool → Bool
| [] => if own = false then false else true
| p :: ps => if own = false then false else isEnabled p ps

/-! ## `Node::setAbsoluteFilePathAndLine` (projectnodes.cpp:83)

The observable effect is the new (path, line) state plus the ordered list
of notifications delivered to `ProjectTree::instance()`; each emit helper
fires only when the node has a parent folder. -/

/-- The notifications a node can send to the `ProjectTree` observer. -/
inductive NodeEvent : Type where
| sortKeyAboutToChange
| sortKeyChanged
| nodeUpdated
deriving DecidableEq, Repr

/-- The mutable state of `Node` touched by `setAbsoluteFilePathAndLine`. -/
structure NodeState where
  filePath : Path
  line : Int
deriving DecidableEq, Repr

/-- `Node::emitNodeSortKeyAboutToChange` (projectnodes.cpp:71): fires only
when the node has a parent folder. -/
def emitNodeSortKeyAboutToChange (hasParent : Bool) : List NodeEvent :=
  if hasParent then [.sortKeyAboutToChange] else []

/-- `Node::emitNodeSortKeyChanged` (projectnodes.cpp:77). -/
def emitNodeSortKeyChanged (hasParent : Bool) : List NodeEvent :=
  if hasParent then [.sortKeyChanged] else []

/-- `Node::emitNodeUpdated` (projectnodes.cpp:186). -/
def emitNodeUpdated (hasParent : Bool) : List NodeEvent :=
  if hasParent then [.nodeUpdated] else []

/-- `Node::setAbsoluteFilePathAndLine` (projectnodes.cpp:83): early return
when path and line are unchanged; otherwise emit sort-key-about-to-change,
assign the new path and line, then emit sort-key-changed and node-updated.
Returns the new state and the emitted notifications in order. -/
def setAbsoluteFilePathAndLine (st : NodeState) (p : Path) (l : Int)
    (hasParent : Bool) : NodeState × List NodeEvent :=
  if st.filePath = p ∧ st.line = l then (st, [])
  else
    (⟨p, l⟩,
      emitNodeSortKeyAboutToChange hasParent ++
        emitNodeSortKeyChanged hasParent ++ emitNodeUpdated hasParent)

/-! ## Concrete nodes used by witnesses and counterexamples -/

/-- A file directly inside directory `[1]`. -/
def aFile : FileN := ⟨[1, 10]⟩

/-- A file inside the subdirectory `[1, 2]`. -/
def bFile : FileN := ⟨[1, 2, 11]⟩

/-- The subfolder `[1, 2]` holding only `bFile`. -/
def subFolder : FolderT := .mk [1, 2] false 0 [2] [bFile] []

/-- A root folder at `[1]` holding `aFile` and `subFolder`. -/
def rootFolder : FolderT := .mk [1] false 0 [1] [aFile] [subFolder]

/-- A keep set holding exactly `aFile` and no folder. -/
def keepOnlyAFile : Keepers := ⟨fun f => decide (f = aFile), fun _ => false⟩

/-- A small root folder whose only child is the leaf `aFile`. -/
def smallRoot : FolderT := .mk [1] false 0 [1] [aFile] []

/-- A keep set holding every file node and no folder. -/
def keepAllFiles : Keepers := ⟨fun _ => true, fun _ => false⟩

/-- The post-condition every successful scan satisfies: the visited set only
grows, it grows by exactly the traced canonical directories, no canonical
directory is recursed into twice (the trace has no duplicates and avoids the
initial visited set), and the poll counter only grows. -/
def ScanPost (nd : Nat) (vis : Finset (Fin (nd + 1))) (polls : Nat)
    (r : ScanRes nd) : Prop :=
  vis ⊆ r.visited ∧ r.visited = vis ∪ r.trace.toFinset ∧ r.trace.Nodup ∧
    (∀ c ∈ r.trace, c ∉ vis) ∧ polls ≤ r.polls

/-- The cancellation flag is monotone: once set it stays set (the realistic
behaviour of `QFutureInterface::isCanceled`). -/
def MonoFlag (c : Nat → Bool) : Prop :=
  ∀ i j : Nat, i ≤ j → c i = true → c j = true

/-- The file-node factory that records the path (for scan witnesses). -/
def idFactory : Path → FileN := fun p => ⟨p⟩

/-- A cancellation flag that never fires. -/
def neverCancel : Nat → Bool := fun _ => false

/-- A cancellation flag set from the second poll on (monotone). -/
def cancelFromOne : Nat → Bool := fun n => decide (1 ≤ n)

/-- A one-directory file system containing a symlink cycle: the single
canonical directory holds a subdirectory reference that resolves back to
itself, next to one file. -/
def cycleFS : ScanFS :=
  ⟨0, fun _ => 0, fun _ => [ScanEntry.dir 5 false, ScanEntry.file [7] false]⟩

/-- A two-directory file system: the root holds a file, a subdirectory and
another file; the subdirectory holds one file. -/
def twoDirFS : ScanFS :=
  ⟨1, fun r => if r = 0 then 0 else 1,
    fun i => if i = 0 then
        [ScanEntry.file [7] false, ScanEntry.dir 1 false,
          ScanEntry.file [8] false]
      else [ScanEntry.file [9] false]⟩

/-- A chain of otherwise-empty directories: each element of `metas` becomes
a folder node holding no files and exactly one subfolder, the next link;
the innermost link is `t`.  Used to state the pruning behaviour of
`buildTree` for a leaf file sitting at the bottom of such a chain. -/
def chainFold : List (Path × Bool × Int × Path) → FolderT → FolderT
| [], t => t
| (p, v, pr, dn) :: ms, t => FolderT.mk p v pr dn [] [chainFold ms t]

/-! # Theorems -/

/-! ## Basic facts about the orders and the recursive file list -/

@[simp] theorem recursiveFileNodes_mk (p v pr dn fs sub) :
    recursiveFileNodes (.mk p v pr dn fs sub) = fs ++ recursiveFileNodesL sub := rfl

@[simp] theorem recursiveFileNodesL_nil : recursiveFileNodesL [] = [] := rfl

@[simp] theorem recursiveFileNodesL_cons (t ts) :
    recursiveFileNodesL (t :: ts) = recursiveFileNodes t ++ recursiveFileNodesL ts := rfl

theorem recursiveFileNodesL_append (ts us) :
    recursiveFileNodesL (ts ++ us) = recursiveFileNodesL ts ++ recursiveFileNodesL us := by
  induction ts with
  | nil => simp
  | cons t ts ih => simp [ih]

theorem lex3_trans {α β γ : Type} [LinearOrder α] [LinearOrder β]
    [LinearOrder γ] {x y z : α × β × γ}
    (h1 : Lex3 x y) (h2 : Lex3 y z) : Lex3 x z := by
  rcases h1 with h1 | ⟨e1, h1 | ⟨e2, h1⟩⟩ <;>
    rcases h2 with h2 | ⟨f1, h2 | ⟨f2, h2⟩⟩
  · exact Or.inl (lt_trans h1 h2)
  · exact Or.inl (f1 ▸ h1)
  · exact Or.inl (f1 ▸ h1)
  · exact Or.inl (e1 ▸ h2)
  · exact Or.inr ⟨e1.trans f1, Or.inl (lt_trans h1 h2)⟩
  · exact Or.inr ⟨e1.trans f1, Or.inl (f2 ▸ h1)⟩
  · exact Or.inl (e1 ▸ h2)
  · exact Or.inr ⟨e1.trans f1, Or.inl (e2 ▸ h2)⟩
  · exact Or.inr ⟨e1.trans f1, Or.inr ⟨e2.trans f2, lt_trans h1 h2⟩⟩

theorem lex3_trichotomy {α β γ : Type} [LinearOrder α] [LinearOrder β]
    [LinearOrder γ] (x y : α × β × γ) :
    Lex3 x y ∨ x = y ∨ Lex3 y x := by
  rcases lt_trichotomy x.1 y.1 with h1 | h1 | h1
  · exact Or.inl (Or.inl h1)
  · rcases lt_trichotomy x.2.1 y.2.1 with h2 | h2 | h2
    · exact Or.inl (Or.inr ⟨h1, Or.inl h2⟩)
    · rcases lt_trichotomy x.2.2 y.2.2 with h3 | h3 | h3
      · exact Or.inl (Or.inr ⟨h1, Or.inr ⟨h2, h3⟩⟩)
      · refine Or.inr (Or.inl ?_)
        rcases x with ⟨x1, x2, x3⟩; rcases y with ⟨y1, y2, y3⟩
        simp only at h1 h2 h3
        rw [h1, h2, h3]
      · exact Or.inr (Or.inr (Or.inr ⟨h1.symm, Or.inr ⟨h2.symm, h3⟩⟩))
    · exact Or.inr (Or.inr (Or.inr ⟨h1.symm, Or.inl h2⟩))
  · exact Or.inr (Or.inr (Or.inl h1))

theorem lex3_irrefl {α β γ : Type} [LinearOrder α] [LinearOrder β]
    [LinearOrder γ] (x : α × β × γ) : ¬ Lex3 x x := by
  rintro (h | ⟨-, h | ⟨-, h⟩⟩) <;> exact lt_irrefl _ h

theorem folderLt_asymm (a b : FolderT) (h : folderLt a b = true) :
    folderLt b a = false := by
  simp only [folderLt, decide_eq_true_eq, decide_eq_false_iff_not] at *
  intro h2
  exact lex3_irrefl _ (lex3_trans h h2)

theorem folderLt_trans_neg (a b c : FolderT)
    (hab : folderLt b a = false) (hbc : folderLt c b = false) :
    folderLt c a = false := by
  simp only [folderLt, decide_eq_false_iff_not] at *
  intro hca
  rcases lex3_trichotomy (folderKey a) (folderKey b) with h | h | h
  · exact hbc (lex3_trans hca h)
  · exact hbc (h ▸ hca)
  · exact hab h

theorem fileLt_asymm (a b : FileN) (h : fileLt a b = true) :
    fileLt b a = false := by
  simp only [fileLt, decide_eq_true_eq, decide_eq_false_iff_not] at *
  exact not_lt_of_lt h

theorem fileLt_trans_neg (a b c : FileN)
    (hab : fileLt b a = false) (hbc : fileLt c b = false) :
    fileLt c a = false := by
  simp only [fileLt, decide_eq_false_iff_not, not_lt] at *
  exact le_trans hab hbc

/-! ## Sorted insertion and the removal walk -/

theorem mem_insertLowerBound {lt : α → α → Bool} {x z : α} {l : List α}
    (h : z ∈ insertLowerBound lt x l) : z = x ∨ z ∈ l := by
  induction l with
  | nil => simpa [insertLowerBound] using h
  | cons y ys ih =>
      simp only [insertLowerBound] at h
      by_cases hc : lt y x = true
      · rw [if_pos hc] at h
        rcases List.mem_cons.mp h with h | h
        · exact Or.inr (h ▸ List.mem_cons_self y ys)
        · rcases ih h with h | h
          · exact Or.inl h
          · exact Or.inr (List.mem_cons_of_mem y h)
      · rw [if_neg hc] at h
        rcases List.mem_cons.mp h with h | h
        · exact Or.inl h
        · exact Or.inr h

theorem insertLowerBound_perm (lt : α → α → Bool) (x : α) (l : List α) :
    List.Perm (insertLowerBound lt x l) (x :: l) := by
  induction l with
  | nil => rfl
  | cons y ys ih =>
      simp only [insertLowerBound]
      by_cases hc : lt y x = true
      · simp only [hc, if_true]
        exact ((ih.cons y).trans (List.Perm.swap x y ys))
      · simp [hc]

theorem sortedBy_insertLowerBound {lt : α → α → Bool}
    (hasymm : ∀ a b : α, lt a b = true → lt b a = false)
    (htr : ∀ a b c : α, lt b a = false → lt c b = false → lt c a = false)
    {l : List α} (hs : SortedBy lt l) (x : α) :
    SortedBy lt (insertLowerBound lt x l) := by
  induction l with
  | nil => simp [insertLowerBound, SortedBy]
  | cons y ys ih =>
      rcases List.pairwise_cons.mp hs with ⟨hy, hys⟩
      simp only [insertLowerBound]
      by_cases hc : lt y x = true
      · simp only [hc, if_true]
        refine List.pairwise_cons.mpr ⟨?_, ih hys⟩
        intro z hz
        rcases mem_insertLowerBound hz with rfl | hz
        · exact hasymm y z hc
        · exact hy z hz
      · simp only [hc, if_false]
        refine List.pairwise_cons.mpr ⟨?_, hs⟩
        intro z hz
        have hcf : lt y x = false := Bool.eq_false_iff.mpr hc
        rcases List.mem_cons.mp hz with rfl | hz
        · exact hcf
        · exact htr x y z hcf (hy z hz)

theorem sorted_getLast_bound {lt : α → α → Bool} :
    ∀ {l : List α}, SortedBy lt l → ∀ (hne : l ≠ []),
      ∀ a ∈ l, a = l.getLast hne ∨ lt (l.getLast hne) a = false
| [], _, hne => absurd rfl hne
| [y], _, _ => by
    intro a ha
    simp only [List.mem_singleton] at ha
    simp [ha, List.getLast]
| y :: z :: zs, hs, hne => by
    intro a ha
    have htail := sorted_getLast_bound (l := z :: zs)
      (List.Pairwise.of_cons hs) (by simp)
    have hne2 : z :: zs ≠ [] := by simp
    have hlast : (y :: z :: zs).getLast hne = (z :: zs).getLast hne2 :=
      List.getLast_cons hne2
    rcases List.pairwise_cons.mp hs with ⟨hy, -⟩
    rcases List.mem_cons.mp ha with rfl | ha
    · right
      rw [hlast]
      exact hy _ (List.getLast_mem hne2)
    · rw [hlast]
      exact htail a ha

theorem sortedBy_insertNodeSorted {lt : α → α → Bool}
    (hasymm : ∀ a b : α, lt a b = true → lt b a = false)
    (htr : ∀ a b c : α, lt b a = false → lt c b = false → lt c a = false)
    {l : List α} (hs : SortedBy lt l) (x : α) :
    SortedBy lt (insertNodeSorted lt l x) := by
  unfold insertNodeSorted
  cases hg : l.getLast? with
  | none => simp [SortedBy]
  | some last =>
      have hne : l ≠ [] := by
        intro h; subst h; simp at hg
      have hlast : l.getLast hne = last := by
        rw [List.getLast?_eq_getLast l hne, Option.some_inj] at hg
        exact hg
      by_cases hc : lt last x = true
      · simp only [hc, if_true]
        unfold SortedBy
        rw [List.pairwise_append]
        refine ⟨hs, List.pairwise_singleton _ _, ?_⟩
        intro a ha b hb
        have hbx : b = x := List.mem_singleton.mp hb
        subst hbx
        rcases sorted_getLast_bound hs hne a ha with ha2 | hla
        · rw [ha2, hlast]; exact hasymm last b hc
        · rw [hlast] at hla
          exact htr a last b hla (hasymm last b hc)
      · simp only [hc, if_false]
        exact sortedBy_insertLowerBound hasymm htr hs x

theorem insertNodeSorted_perm (lt : α → α → Bool) (l : List α) (x : α) :
    List.Perm (insertNodeSorted lt l x) (x :: l) := by
  unfold insertNodeSorted
  cases hg : l.getLast? with
  | none =>
      have hnil : l = [] := by
        cases l with
        | nil => rfl
        | cons y ys => simp [List.getLast?_eq_getLast] at hg
      subst hnil; rfl
  | some last =>
      by_cases hc : lt last x = true
      · simp only [hc, if_true]
        have hp : List.Perm (l ++ [x]) ([x] ++ l) := List.perm_append_comm
        exact hp
      · simp only [hc, if_false]
        exact insertLowerBound_perm lt x l

theorem sortedBy_addNodesSorted {lt : α → α → Bool}
    (hasymm : ∀ a b : α, lt a b = true → lt b a = false)
    (htr : ∀ a b c : α, lt b a = false → lt c b = false → lt c a = false)
    (toAdd : List α) {cur : List α} (hs : SortedBy lt cur) :
    SortedBy lt (addNodesSorted lt toAdd cur) := by
  induction toAdd generalizing cur with
  | nil => exact hs
  | cons a rest ih =>
      exact ih (sortedBy_insertNodeSorted hasymm htr hs a)

theorem addNodesSorted_perm (lt : α → α → Bool) (toAdd cur : List α) :
    List.Perm (addNodesSorted lt toAdd cur) (toAdd ++ cur) := by
  induction toAdd generalizing cur with
  | nil => exact List.Perm.refl cur
  | cons a rest ih =>
      refine ((ih _).trans ?_)
      refine (List.Perm.append_left rest (insertNodeSorted_perm lt cur a)).trans ?_
      exact List.perm_middle

theorem eraseWalkAux_sublist (beq : α → α → Bool) (acc cur toRemove : List α) :
    List.Sublist (eraseWalkAux beq acc cur toRemove) (acc.reverse ++ cur) := by
  induction cur generalizing acc toRemove with
  | nil =>
      cases toRemove with
      | nil => simp [eraseWalkAux]
      | cons r rs => simp [eraseWalkAux]
  | cons x xs ih =>
      cases toRemove with
      | nil => simp [eraseWalkAux]
      | cons r rs =>
          simp only [eraseWalkAux]
          by_cases hc : beq x r = true
          · simp only [hc, if_true]
            exact (ih acc rs).trans
              (List.Sublist.append_left (List.sublist_cons_self x xs) acc.reverse)
          · simp only [hc, if_false]
            have hstep := ih (x :: acc) (r :: rs)
            simpa [List.reverse_cons, List.append_assoc] using hstep

theorem eraseWalk_sublist (beq : α → α → Bool) (cur toRemove : List α) :
    List.Sublist (eraseWalk beq cur toRemove) cur := by
  simpa using eraseWalkAux_sublist beq [] cur toRemove

theorem sortedBy_removeNodesSorted {beq : α → α → Bool} {lt : α → α → Bool}
    (toRemove : List α) {cur : List α} (hs : SortedBy lt cur) :
    SortedBy lt (removeNodesSorted beq lt toRemove cur) :=
  List.Pairwise.sublist (eraseWalk_sublist beq cur _) hs

theorem sortedInsert_perm (le : α → α → Bool) (x : α) (l : List α) :
    List.Perm (sortedInsert le x l) (x :: l) := by
  induction l with
  | nil => rfl
  | cons y ys ih =>
      simp only [sortedInsert]
      by_cases hc : le x y = true
      · simp [hc]
      · simp only [hc, if_false]
        exact (ih.cons y).trans (List.Perm.swap x y ys)

theorem sortNodes_perm (le : α → α → Bool) (l : List α) :
    List.Perm (sortNodes le l) l := by
  induction l with
  | nil => rfl
  | cons x xs ih =>
      simp only [sortNodes]
      exact (sortedInsert_perm le x (sortNodes le xs)).trans (ih.cons x)

/-! ## C9: `isEnabled` is conjunctive over the ancestor chain -/

/-- C9.  `isEnabled()` is true exactly when the node's own enable flag is
true and every ancestor flag along the parent chain (nearest parent first)
is true; so disabling the node itself or any ancestor makes it false. -/
theorem isEnabled_conjunctive (own : Bool) (ps : List Bool) :
    isEnabled own ps = true ↔ own = true ∧ ∀ b ∈ ps, b = true := by
  induction ps generalizing own with
  | nil =>
      cases own <;> simp [isEnabled]
  | cons p ps ih =>
      cases own with
      | false => simp [isEnabled]
      | true => simp [isEnabled, ih p, List.forall_mem_cons]

/-! ## C10: `setAbsoluteFilePathAndLine` frame conditions -/

/-- C10.  Setting the same path and line is a complete no-op (state
unchanged, no notification); when path or line differs and the node has a
parent, the node takes the new path and line and exactly the notifications
sort-key-about-to-change, sort-key-changed, node-updated are emitted, in
that order, bracketing the mutation; notifications are only emitted when
something differs. -/
theorem setAbsoluteFilePathAndLine_frame (st : NodeState) (p : Path) (l : Int)
    (hasParent : Bool) :
    ((setAbsoluteFilePathAndLine st p l hasParent).1 = st ↔
      (st.filePath = p ∧ st.line = l)) ∧
    ((setAbsoluteFilePathAndLine st p l hasParent).2 = [] ↔
      ((st.filePath = p ∧ st.line = l) ∨ hasParent = false)) ∧
    (¬(st.filePath = p ∧ st.line = l) → hasParent = true →
      (setAbsoluteFilePathAndLine st p l hasParent).1 = ⟨p, l⟩ ∧
      (setAbsoluteFilePathAndLine st p l hasParent).2 =
        [NodeEvent.sortKeyAboutToChange, NodeEvent.sortKeyChanged,
          NodeEvent.nodeUpdated]) := by
  by_cases h : st.filePath = p ∧ st.line = l
  · rw [setAbsoluteFilePathAndLine, if_pos h]
    refine ⟨by simp [h], by simp [h], fun hc => absurd h hc⟩
  · rw [setAbsoluteFilePathAndLine, if_neg h]
    cases hasParent with
    | false =>
        refine ⟨?_, by simp [emitNodeSortKeyAboutToChange,
          emitNodeSortKeyChanged, emitNodeUpdated], by simp⟩
        constructor
        · intro heq
          exact absurd ⟨congrArg NodeState.filePath heq.symm,
            congrArg NodeState.line heq.symm⟩ h
        · intro hc; exact absurd hc h
    | true =>
        refine ⟨?_, ?_, fun _ _ => ⟨rfl, rfl⟩⟩
        · constructor
          · intro heq
            exact absurd ⟨congrArg NodeState.filePath heq.symm,
              congrArg NodeState.line heq.symm⟩ h
          · intro hc; exact absurd hc h
        · simp [emitNodeSortKeyAboutToChange, emitNodeSortKeyChanged,
            emitNodeUpdated, h]

/-- Witness for C10 at a concrete node: setting an equal path and line
returns the state unchanged with no events, and setting a different path
emits the three notifications around the mutation. -/
theorem setAbsoluteFilePathAndLine_frame_witness :
    ((setAbsoluteFilePathAndLine ⟨[1], 3⟩ [1] 3 true).1 = ⟨[1], 3⟩) ∧
    ((setAbsoluteFilePathAndLine ⟨[1], 3⟩ [2] 3 true).2 =
      [NodeEvent.sortKeyAboutToChange, NodeEvent.sortKeyChanged,
        NodeEvent.nodeUpdated]) :=
  ⟨((setAbsoluteFilePathAndLine_frame ⟨[1], 3⟩ [1] 3 true).1).mpr
      (by constructor <;> rfl),
    (((setAbsoluteFilePathAndLine_frame ⟨[1], 3⟩ [2] 3 true).2.2)
      (by intro hc; simpa using hc.1) rfl).2⟩

/-! ## C5: the child collections stay sorted under every operation
sequence -/

/-- C5.  Starting from a folder whose `fileNodes` collection is sorted by
the file-path order and whose `folderNodes` collection is sorted by the
composite folder order, any sequence of `addFileNodes` / `removeFileNodes` /
`addFolderNodes` / `removeFolderNodes` operations leaves both collections
sorted by their respective orders. -/
theorem folder_collections_stay_sorted (ops : List FolderOp)
    (st : FolderChildren)
    (hf : SortedBy fileLt st.fileNodes)
    (hd : SortedBy folderLt st.folderNodes) :
    SortedBy fileLt (applyFolderOps st ops).fileNodes ∧
    SortedBy folderLt (applyFolderOps st ops).folderNodes := by
  induction ops generalizing st with
  | nil => exact ⟨hf, hd⟩
  | cons op rest ih =>
      have hstep : SortedBy fileLt (applyFolderOp st op).fileNodes ∧
          SortedBy folderLt (applyFolderOp st op).folderNodes := by
        rcases op with l | l | l | l
        · exact ⟨sortedBy_addNodesSorted fileLt_asymm fileLt_trans_neg l hf, hd⟩
        · exact ⟨sortedBy_removeNodesSorted l hf, hd⟩
        · exact ⟨hf,
            sortedBy_addNodesSorted folderLt_asymm folderLt_trans_neg l hd⟩
        · exact ⟨hf, sortedBy_removeNodesSorted l hd⟩
      exact ih (applyFolderOp st op) hstep.1 hstep.2

/-- Witness for C5: from an empty folder, adding two files and a folder and
then removing a file leaves both collections sorted. -/
theorem folder_collections_stay_sorted_witness :
    SortedBy fileLt ((applyFolderOps ⟨[], []⟩
      [.addFiles [bFile, aFile], .addFolders [subFolder],
        .removeFiles [aFile]]).fileNodes) ∧
    SortedBy folderLt ((applyFolderOps ⟨[], []⟩
      [.addFiles [bFile, aFile], .addFolders [subFolder],
        .removeFiles [aFile]]).folderNodes) :=
  folder_collections_stay_sorted
    [.addFiles [bFile, aFile], .addFolders [subFolder], .removeFiles [aFile]]
    ⟨[], []⟩ (List.Pairwise.nil) (List.Pairwise.nil)

/-! ## C8: project versus session sub-project removal -/

theorem natBeq_iff (a b : Nat) : natBeq a b = true ↔ a = b := by
  simp [natBeq]

theorem eraseWalkAux_perm_of_sublist {beq : α → α → Bool}
    (hbeq : ∀ a b : α, beq a b = true ↔ a = b) :
    ∀ {cur toRemove : List α} (acc : List α), List.Sublist toRemove cur →
      List.Perm (eraseWalkAux beq acc cur toRemove ++ toRemove)
        (acc.reverse ++ cur) := by
  intro cur
  induction cur with
  | nil =>
      intro toRemove acc hsub
      rw [List.sublist_nil.mp hsub]
      simp [eraseWalkAux]
  | cons x xs ih =>
      intro toRemove acc hsub
      cases toRemove with
      | nil => simp [eraseWalkAux]
      | cons r rs =>
          simp only [eraseWalkAux]
          by_cases hc : beq x r = true
          · have hxr : x = r := (hbeq x r).mp hc
            subst hxr
            simp only [hc, if_true]
            have hrs : List.Sublist rs xs := by
              cases hsub with
              | cons _ h => exact ((List.sublist_cons_self x rs).trans h)
              | cons₂ _ h => exact h
            have h1 : List.Perm (eraseWalkAux beq acc xs rs ++ x :: rs)
                (x :: (eraseWalkAux beq acc xs rs ++ rs)) := List.perm_middle
            have h2 : List.Perm (x :: (eraseWalkAux beq acc xs rs ++ rs))
                (x :: (acc.reverse ++ xs)) := (ih acc hrs).cons x
            exact (h1.trans h2).trans List.perm_middle.symm
          · have hxr : x ≠ r := fun h => by
              rw [h] at hc
              exact hc ((hbeq r r).mpr rfl)
            simp only [hc, if_false]
            have hsub2 : List.Sublist (r :: rs) xs := by
              cases hsub with
              | cons _ h => exact h
              | cons₂ _ h => exact absurd rfl hxr
            have hstep := ih (x :: acc) hsub2
            have heq : (x :: acc).reverse ++ xs = acc.reverse ++ x :: xs := by
              simp [List.reverse_cons, List.append_assoc]
            rw [heq] at hstep
            exact hstep

theorem eraseWalk_perm_of_sublist {beq : α → α → Bool}
    (hbeq : ∀ a b, beq a b = true ↔ a = b)
    {cur toRemove : List α} (hsub : List.Sublist toRemove cur) :
    List.Perm (eraseWalk beq cur toRemove ++ toRemove) cur := by
  simpa [eraseWalk] using eraseWalkAux_perm_of_sublist hbeq [] hsub

/-- C8.  On a non-empty list of sub-projects present in both collections,
`ProjectNode::removeProjectNodes` and `SessionNode::removeProjectNodes`
compute the same surviving collections — each listed project is removed from
both `projectNodes` and `folderNodes` — but the project variant destroys
exactly the listed nodes while the session variant destroys none, so the
removed nodes survive it. -/
theorem removeProjectNodes_destroy_asymmetry (subs : List Nat) (st : SessColl)
    (hne : subs ≠ [])
    (hp : List.Sublist (sortNodes (fun a b => decide (a ≤ b)) subs)
      st.projectNodes)
    (hf : List.Sublist (sortNodes (fun a b => decide (a ≤ b)) subs)
      st.folderNodes) :
    (projectRemoveProjectNodes subs st).1 = (sessionRemoveProjectNodes subs st).1 ∧
    List.Perm ((projectRemoveProjectNodes subs st).1.projectNodes ++ subs)
      st.projectNodes ∧
    List.Perm ((projectRemoveProjectNodes subs st).1.folderNodes ++ subs)
      st.folderNodes ∧
    (projectRemoveProjectNodes subs st).2 =
      sortNodes (fun a b => decide (a ≤ b)) subs ∧
    (sessionRemoveProjectNodes subs st).2 = [] := by
  have hnb : subs.isEmpty = false := by
    cases subs with
    | nil => exact absurd rfl hne
    | cons a l => rfl
  have hsortPerm : List.Perm (sortNodes (fun a b => decide (a ≤ b)) subs) subs :=
    sortNodes_perm _ subs
  have hpp : List.Perm
      ((eraseWalk natBeq st.projectNodes
          (sortNodes (fun a b => decide (a ≤ b)) subs)) ++ subs)
      st.projectNodes := by
    refine List.Perm.trans ?_ (eraseWalk_perm_of_sublist natBeq_iff hp)
    exact List.Perm.append_left _ hsortPerm.symm
  have hff : List.Perm
      ((eraseWalk natBeq st.folderNodes
          (sortNodes (fun a b => decide (a ≤ b)) subs)) ++ subs)
      st.folderNodes := by
    refine List.Perm.trans ?_ (eraseWalk_perm_of_sublist natBeq_iff hf)
    exact List.Perm.append_left _ hsortPerm.symm
  have hproj : projectRemoveProjectNodes subs st =
      (⟨eraseWalk natBeq st.folderNodes
          (sortNodes (fun a b => decide (a ≤ b)) subs),
        eraseWalk natBeq st.projectNodes
          (sortNodes (fun a b => decide (a ≤ b)) subs)⟩,
        sortNodes (fun a b => decide (a ≤ b)) subs) := by
    unfold projectRemoveProjectNodes
    rw [hnb]
    rfl
  have hsess : sessionRemoveProjectNodes subs st =
      (⟨eraseWalk natBeq st.folderNodes
          (sortNodes (fun a b => decide (a ≤ b)) subs),
        eraseWalk natBeq st.projectNodes
          (sortNodes (fun a b => decide (a ≤ b)) subs)⟩,
        []) := by
    unfold sessionRemoveProjectNodes
    rw [hnb]
    rfl
  rw [hproj, hsess]
  exact ⟨rfl, hpp, hff, rfl, rfl⟩

/-- Witness for C8: removing sub-project `3` from a session/project holding
folder collection `[1, 3, 5]` and project collection `[3, 5]`. -/
theorem removeProjectNodes_destroy_asymmetry_witness :
    (projectRemoveProjectNodes [3] ⟨[1, 3, 5], [3, 5]⟩).1 =
      (sessionRemoveProjectNodes [3] ⟨[1, 3, 5], [3, 5]⟩).1 ∧
    List.Perm ((projectRemoveProjectNodes [3] ⟨[1, 3, 5], [3, 5]⟩).1.projectNodes
      ++ [3]) [3, 5] ∧
    List.Perm ((projectRemoveProjectNodes [3] ⟨[1, 3, 5], [3, 5]⟩).1.folderNodes
      ++ [3]) [1, 3, 5] ∧
    (projectRemoveProjectNodes [3] ⟨[1, 3, 5], [3, 5]⟩).2 =
      sortNodes (fun a b => decide (a ≤ b)) [3] ∧
    (sessionRemoveProjectNodes [3] ⟨[1, 3, 5], [3, 5]⟩).2 = [] :=
  removeProjectNodes_destroy_asymmetry [3] ⟨[1, 3, 5], [3, 5]⟩
    (by decide) (by decide) (by decide)

/-! ## C3 and C4: `trim` -/

theorem decide_length_ne_filter (p : α → Bool) (l : List α) :
    decide (l.length ≠ (l.filter p).length) = l.any (fun x => !(p x)) := by
  by_cases h : (l.filter p).length = l.length
  · have hall : ∀ a ∈ l, p a = true := List.filter_length_eq_length.mp h
    have hany : l.any (fun x => !(p x)) = false := by
      rw [Bool.eq_false_iff]
      intro hx
      rcases List.any_eq_true.mp hx with ⟨x, hxl, hxp⟩
      rw [hall x hxl] at hxp
      simp at hxp
    rw [hany, decide_eq_false]
    intro hne
    exact hne h.symm
  · have hlt : (l.filter p).length < l.length :=
      lt_of_le_of_ne (List.length_filter_le p l) h
    have hex : ∃ x ∈ l, p x = false := by
      by_contra hno
      push_neg at hno
      have hall : ∀ a ∈ l, p a = true := by
        intro a ha
        cases hpa : p a with
        | false => exact absurd hpa (hno a ha)
        | true => rfl
      exact h (List.filter_length_eq_length.mpr hall)
    have hany : l.any (fun x => !(p x)) = true := by
      rcases hex with ⟨x, hxl, hxp⟩
      exact List.any_eq_true.mpr ⟨x, hxl, by simp [hxp]⟩
    rw [hany, decide_eq_true]
    omega

theorem trimFile_isSome (k : Keepers) (f : FileN) :
    (trimFile k f).isSome = !(k.file f) := by
  unfold trimFile
  cases hf : k.file f <;> simp

theorem removeNodesSorted_nil (beq : α → α → Bool) (lt : α → α → Bool)
    (cur : List α) : removeNodesSorted beq lt [] cur = cur := by
  simp [removeNodesSorted, sortNodes, eraseWalk, eraseWalkAux]

theorem removeFileNodes_nil (cur : List FileN) : removeFileNodes [] cur = cur :=
  removeNodesSorted_nil fileBeq fileLt cur

theorem removeFolderNodes_nil (cur : List FolderT) :
    removeFolderNodes [] cur = cur :=
  removeNodesSorted_nil FolderT.beq folderLt cur

mutual
theorem trimFolder_snd (k : Keepers) :
    ∀ t : FolderT, (trimFolder k t).2 = !(keptSpec k t)
| .mk p v pr dn fs sub => by
    rw [trimFolder, keptSpec]
    by_cases hk : k.folder (.mk p v pr dn fs sub) = true
    · simp [hk]
    · rw [if_neg hk]
      have hkf : k.folder (.mk p v pr dn fs sub) = false :=
        Bool.eq_false_iff.mpr hk
      simp only [hkf, Bool.false_or]
      have h1 : decide (fs.length ≠
          (fs.filter (fun f => (trimFile k f).isSome)).length) =
          fs.any (fun f => k.file f) := by
        rw [decide_length_ne_filter]
        simp only [trimFile_isSome, Bool.not_not]
      have h2 : decide ((trimFolderL k sub).length ≠
          (((trimFolderL k sub).filter (fun r => r.2)).map
            (fun r => r.1)).length) = keptSpecL k sub := by
        rw [List.length_map, decide_length_ne_filter]
        exact trimFolderL_any k sub
      simp only [h1, h2]

theorem trimFolderL_any (k : Keepers) :
    ∀ sub : List FolderT,
      ((trimFolderL k sub).any (fun r => !r.2)) = keptSpecL k sub
| [] => rfl
| c :: cs => by
    rw [trimFolderL, keptSpecL, List.any_cons, trimFolderL_any k cs,
      trimFolder_snd k c]
    simp
end

/-- Counterexample to C3 as stated: for a file node that IS in the keep set,
`trim` returns null, while the claim says null is returned exactly when the
node is NOT in the keep set. -/
theorem trim_null_iff_not_kept_counterexample :
    ¬ ((trimFile keepOnlyAFile aFile = none) ↔
        (keepOnlyAFile.file aFile = false)) := by
  decide

/-- C3, amended: `trim` returns null (meaning "keep me") exactly when the
node is in the keep set — or, for a folder node, when it is in the keep set
or some descendant survives the recursive trimming of its children — and
returns the node itself (meaning "drop me") otherwise. -/
theorem trim_null_iff_kept (k : Keepers) (n : FileN) (t : FolderT) :
    (trimFile k n = none ↔ k.file n = true) ∧
    (trimRet k t = none ↔ keptSpec k t = true) := by
  constructor
  · unfold trimFile
    cases hf : k.file n <;> simp
  · simp only [trimRet]
    rw [trimFolder_snd k t]
    cases hs : keptSpec k t <;> simp

/-- Counterexample to C4 as stated: a folder with one file child, the keep
set holding exactly that leaf.  `trim` keeps the tree unchanged but returns
null (meaning "keep me"), not the folder itself as the claim states. -/
theorem trim_keepAllLeaves_counterexample :
    (∀ f ∈ recursiveFileNodes smallRoot, keepOnlyAFile.file f = true) ∧
    trimRet keepOnlyAFile smallRoot = none ∧
    ¬ (trimRet keepOnlyAFile smallRoot = some smallRoot) := by
  refine ⟨by decide, rfl, ?_⟩
  intro h
  rw [(rfl : trimRet keepOnlyAFile smallRoot = none)] at h
  exact Option.noConfusion h

theorem nonempty_of_recursiveFileNodes_ne :
    ∀ t : FolderT, recursiveFileNodes t ≠ [] →
      t.files ≠ [] ∨ t.folders ≠ []
| .mk p v pr dn fs sub => by
    intro h
    cases hfs : fs with
    | cons f fl => exact Or.inl (by simp [FolderT.files, hfs])
    | nil =>
        cases hsub : sub with
        | cons c cl => exact Or.inr (by simp [FolderT.folders, hsub])
        | nil =>
            subst hfs; subst hsub
            simp at h

theorem map_fst_map_pair (sub : List FolderT) :
    (sub.map (fun c => (c, false))).map (fun r => r.1) = sub := by
  induction sub with
  | nil => rfl
  | cons c cs ih => simp only [List.map_cons, ih]

mutual
theorem trimFolder_keepAll (k : Keepers) :
    ∀ t : FolderT, (∀ f ∈ recursiveFileNodes t, k.file f = true) →
      noBarren t = true → (t.files ≠ [] ∨ t.folders ≠ []) →
      trimFolder k t = (t, false)
| .mk p v pr dn fs sub => by
    intro hfiles hbar hchild
    rw [trimFolder]
    by_cases hk : k.folder (.mk p v pr dn fs sub) = true
    · rw [if_pos hk]
    · rw [if_neg hk]
      have hdropF : fs.filter (fun f => (trimFile k f).isSome) = [] := by
        rw [List.filter_eq_nil_iff]
        intro f hf
        rw [trimFile_isSome]
        have : k.file f = true :=
          hfiles f (by simp [List.mem_append, hf])
        simp [this]
      have hsubfiles : ∀ f ∈ recursiveFileNodesL sub, k.file f = true := by
        intro f hf
        exact hfiles f (by simp [List.mem_append, hf])
      have hbarL : noBarrenL sub = true := by
        rw [noBarren] at hbar
        exact hbar
      have htrimmed : trimFolderL k sub = sub.map (fun c => (c, false)) :=
        trimFolderL_keepAll k sub hsubfiles hbarL
      have hdropD : ((sub.map (fun c => (c, false))).filter
          (fun r => r.2)).map (fun r => r.1) = ([] : List FolderT) := by
        have hfil : (sub.map (fun c => (c, false))).filter
            (fun r => r.2) = [] := by
          rw [List.filter_eq_nil_iff]
          intro r hr
          rcases List.mem_map.mp hr with ⟨c, -, rfl⟩
          simp
        rw [hfil]
        rfl
      have hmapfst := map_fst_map_pair sub
      refine Prod.ext ?_ ?_
      · show FolderT.mk p v pr dn
            (removeFileNodes (fs.filter (fun f => (trimFile k f).isSome)) fs)
            (removeFolderNodes
              (((trimFolderL k sub).filter (fun r => r.2)).map (fun r => r.1))
              ((trimFolderL k sub).map (fun r => r.1))) =
          FolderT.mk p v pr dn fs sub
        rw [hdropF, htrimmed, hdropD, hmapfst, removeFileNodes_nil,
          removeFolderNodes_nil]
      · show (!(decide (fs.length ≠
              (fs.filter (fun f => (trimFile k f).isSome)).length) ||
            decide ((trimFolderL k sub).length ≠
              (((trimFolderL k sub).filter (fun r => r.2)).map
                (fun r => r.1)).length))) = false
        rw [hdropF, htrimmed, hdropD]
        rcases hchild with hc | hc
        · have hne2 : fs ≠ [] := by simpa [FolderT.files] using hc
          have hlen : fs.length ≠ 0 := by
            intro h0
            exact hne2 (List.length_eq_zero.mp h0)
          simp [hlen]
        · have hne2 : sub ≠ [] := by simpa [FolderT.folders] using hc
          have hlen : sub.length ≠ 0 := by
            intro h0
            exact hne2 (List.length_eq_zero.mp h0)
          simp [hlen]

theorem trimFolderL_keepAll (k : Keepers) :
    ∀ sub : List FolderT,
      (∀ f ∈ recursiveFileNodesL sub, k.file f = true) →
      noBarrenL sub = true →
      trimFolderL k sub = sub.map (fun c => (c, false))
| [] => by intro _ _; rfl
| c :: cs => by
    intro hfiles hbar
    rw [noBarrenL] at hbar
    have hb1 : (recursiveFileNodes c).isEmpty = false ∧ noBarren c = true ∧
        noBarrenL cs = true := by
      rcases Bool.and_eq_true_iff.mp hbar with ⟨h12, h3⟩
      rcases Bool.and_eq_true_iff.mp h12 with ⟨h1, h2⟩
      exact ⟨by simpa using h1, h2, h3⟩
    have hcne : recursiveFileNodes c ≠ [] := by
      intro h
      rw [h] at hb1
      simp [List.isEmpty] at hb1
    have hcfiles : ∀ f ∈ recursiveFileNodes c, k.file f = true := by
      intro f hf
      exact hfiles f (by simp [List.mem_append, hf])
    have hcsfiles : ∀ f ∈ recursiveFileNodesL cs, k.file f = true := by
      intro f hf
      exact hfiles f (by simp [List.mem_append, hf])
    rw [trimFolderL, List.map_cons,
      trimFolder_keepAll k c hcfiles hb1.2.1
        (nonempty_of_recursiveFileNodes_ne c hcne),
      trimFolderL_keepAll k cs hcsfiles hb1.2.2]
end

/-- C4, amended: when the keep set contains every file of the folder's
subtree, the folder has at least one child, and no folder below it is barren
(every subfolder's subtree contains a file), `trim` leaves the tree
unchanged (no child removed or destroyed) and returns null — the folder is
kept; it does not return the folder itself, which would mean droppable. -/
theorem trim_keepAllLeaves_unchanged (k : Keepers) (t : FolderT)
    (hfiles : ∀ f ∈ recursiveFileNodes t, k.file f = true)
    (hbarren : noBarren t = true)
    (hchild : t.files ≠ [] ∨ t.folders ≠ []) :
    trimFolder k t = (t, false) ∧ trimRet k t = none := by
  have h := trimFolder_keepAll k t hfiles hbarren hchild
  refine ⟨h, ?_⟩
  simp [trimRet, h]

/-- Witness for the amended C4 at a concrete tree: keeping all files of
`rootFolder` leaves it unchanged and `trim` reports "keep". -/
theorem trim_keepAllLeaves_unchanged_witness :
    trimFolder keepAllFiles rootFolder = (rootFolder, false) ∧
    trimRet keepAllFiles rootFolder = none :=
  trim_keepAllLeaves_unchanged keepAllFiles rootFolder
    (by decide) (by decide) (Or.inl (by decide))

/-! ## C6: scan termination and the visited-set guard -/

theorem ScanPost.weaken {nd : Nat} {vis : Finset (Fin (nd + 1))}
    {polls polls1 : Nat} {r : ScanRes nd}
    (h : ScanPost nd vis polls1 r) (hle : polls ≤ polls1) :
    ScanPost nd vis polls r :=
  ⟨h.1, h.2.1, h.2.2.1, h.2.2.2.1, le_trans hle h.2.2.2.2⟩

mutual
theorem scanDirF_post (fs : ScanFS) (factory : Path → FileN) (future : Bool)
    (cancel : Nat → Bool) :
    ∀ (fuel ref : Nat) (vis : Finset (Fin (fs.ndirs + 1))) (polls : Nat)
      (r : ScanRes fs.ndirs),
      scanDirF fs factory future cancel fuel ref vis polls = some r →
      ScanPost fs.ndirs vis polls r
| 0, ref, vis, polls, r => by
    intro h
    rw [scanDirF] at h
    exact Option.noConfusion h
| fuel + 1, ref, vis, polls, r => by
    intro h
    rw [scanDirF] at h
    by_cases hc : fs.canon ref ∈ vis
    · rw [if_pos hc] at h
      cases h
      exact ⟨Finset.Subset.refl vis, by simp, List.Pairwise.nil,
        by intro c hc2; exact absurd hc2 (List.not_mem_nil c), le_refl polls⟩
    · rw [if_neg hc] at h
      rcases Option.map_eq_some'.mp h with ⟨r1, h1, rfl⟩
      have hp := scanEntriesF_post fs factory future cancel fuel
        (fs.entries (fs.canon ref)) (insert (fs.canon ref) vis) polls r1 h1
      refine ⟨?_, ?_, ?_, ?_, hp.2.2.2.2⟩
      · exact (Finset.subset_insert (fs.canon ref) vis).trans hp.1
      · show r1.visited = vis ∪ (fs.canon ref :: r1.trace).toFinset
        rw [List.toFinset_cons, Finset.union_insert, hp.2.1,
          Finset.insert_union]
      · show (fs.canon ref :: r1.trace).Nodup
        rw [List.nodup_cons]
        refine ⟨?_, hp.2.2.1⟩
        intro hmem
        exact hp.2.2.2.1 (fs.canon ref) hmem (Finset.mem_insert_self _ vis)
      · intro x hx
        rcases List.mem_cons.mp hx with rfl | hx
        · exact hc
        · intro hxv
          exact hp.2.2.2.1 x hx (Finset.mem_insert_of_mem hxv)
termination_by fuel _ref _vis _polls _r => (fuel, 0)

theorem scanEntriesF_post (fs : ScanFS) (factory : Path → FileN)
    (future : Bool) (cancel : Nat → Bool) (fuel : Nat) :
    ∀ (es : List ScanEntry) (vis : Finset (Fin (fs.ndirs + 1)))
      (polls : Nat) (r : ScanRes fs.ndirs),
      scanEntriesF fs factory future cancel fuel es vis polls = some r →
      ScanPost fs.ndirs vis polls r
| [], vis, polls, r => by
    intro h
    rw [scanEntriesF] at h
    cases h
    exact ⟨Finset.Subset.refl vis, by simp, List.Pairwise.nil,
      by intro c hc2; exact absurd hc2 (List.not_mem_nil c), le_refl polls⟩
| e :: es, vis, polls, r => by
    intro h
    rw [scanEntriesF] at h
    by_cases hcan : (future && cancel polls) = true
    · rw [if_pos hcan] at h
      cases h
      exact ⟨Finset.Subset.refl vis, by simp, List.Pairwise.nil,
        by intro c hc2; exact absurd hc2 (List.not_mem_nil c),
        Nat.le_succ polls⟩
    · rw [if_neg hcan] at h
      have hpolls1 : polls ≤ (if future then polls + 1 else polls) := by
        cases future <;> simp
      rcases e with ⟨ref, vcs⟩ | ⟨p, vcs⟩ <;> dsimp only at h
      · by_cases hv : vcs = true
        · rw [if_pos hv] at h
          exact (scanEntriesF_post fs factory future cancel fuel es vis _ r
            h).weaken hpolls1
        · rw [if_neg hv] at h
          rcases Option.bind_eq_some.mp h with ⟨r1, h1, h2⟩
          rcases Option.map_eq_some'.mp h2 with ⟨r2, h2a, rfl⟩
          have p1 := scanDirF_post fs factory future cancel fuel ref vis _
            r1 h1
          have p2 := scanEntriesF_post fs factory future cancel fuel es
            r1.visited r1.polls r2 h2a
          refine ⟨p1.1.trans p2.1, ?_, ?_, ?_, ?_⟩
          · show r2.visited = vis ∪ (r1.trace ++ r2.trace).toFinset
            rw [List.toFinset_append, ← Finset.union_assoc, ← p1.2.1, p2.2.1]
          · show (r1.trace ++ r2.trace).Nodup
            rw [List.nodup_append]
            refine ⟨p1.2.2.1, p2.2.2.1, ?_⟩
            intro x hx1 hx2
            have hxv : x ∈ r1.visited := by
              rw [p1.2.1]
              exact Finset.mem_union_right vis (List.mem_toFinset.mpr hx1)
            exact p2.2.2.2.1 x hx2 hxv
          · intro x hx
            rcases List.mem_append.mp hx with hx | hx
            · exact p1.2.2.2.1 x hx
            · intro hxv
              exact p2.2.2.2.1 x hx (p1.1 hxv)
          · exact le_trans hpolls1 (le_trans p1.2.2.2.2 p2.2.2.2.2)
      · by_cases hv : vcs = true
        · rw [if_pos hv] at h
          exact (scanEntriesF_post fs factory future cancel fuel es vis _ r
            h).weaken hpolls1
        · rw [if_neg hv] at h
          rcases Option.map_eq_some'.mp h with ⟨r2, h2a, rfl⟩
          have p2 := scanEntriesF_post fs factory future cancel fuel es vis _
            r2 h2a
          exact ⟨p2.1, p2.2.1, p2.2.2.1, p2.2.2.2.1,
            le_trans hpolls1 p2.2.2.2.2⟩
termination_by es _vis _polls _r => (fuel, es.length + 1)
end

mutual
theorem scanDirF_isSome (fs : ScanFS) (factory : Path → FileN)
    (future : Bool) (cancel : Nat → Bool) :
    ∀ (fuel ref : Nat) (vis : Finset (Fin (fs.ndirs + 1))) (polls : Nat),
      fs.ndirs + 2 ≤ fuel + vis.card →
      (scanDirF fs factory future cancel fuel ref vis polls).isSome = true
| 0, ref, vis, polls => by
    intro hfuel
    have hcard : vis.card ≤ fs.ndirs + 1 := by
      have h := Finset.card_le_univ vis
      simpa using h
    omega
| fuel + 1, ref, vis, polls => by
    intro hfuel
    rw [scanDirF]
    by_cases hc : fs.canon ref ∈ vis
    · rw [if_pos hc]
      rfl
    · rw [if_neg hc]
      have hcard : (insert (fs.canon ref) vis).card = vis.card + 1 :=
        Finset.card_insert_of_not_mem hc
      have hrec := scanEntriesF_isSome fs factory future cancel fuel
        (fs.entries (fs.canon ref)) (insert (fs.canon ref) vis) polls
        (by omega)
      rcases Option.isSome_iff_exists.mp hrec with ⟨r1, hr1⟩
      rw [hr1]
      rfl
termination_by fuel _ref _vis _polls => (fuel, 0)

theorem scanEntriesF_isSome (fs : ScanFS) (factory : Path → FileN)
    (future : Bool) (cancel : Nat → Bool) (fuel : Nat) :
    ∀ (es : List ScanEntry) (vis : Finset (Fin (fs.ndirs + 1))) (polls : Nat),
      fs.ndirs + 2 ≤ fuel + vis.card →
      (scanEntriesF fs factory future cancel fuel es vis polls).isSome = true
| [], vis, polls => by
    intro hfuel
    rw [scanEntriesF]
    rfl
| e :: es, vis, polls => by
    intro hfuel
    rw [scanEntriesF]
    by_cases hcan : (future && cancel polls) = true
    · rw [if_pos hcan]
      rfl
    · rw [if_neg hcan]
      rcases e with ⟨ref, vcs⟩ | ⟨p, vcs⟩ <;> dsimp only
      · by_cases hv : vcs = true
        · rw [if_pos hv]
          exact scanEntriesF_isSome fs factory future cancel fuel es vis _
            hfuel
        · rw [if_neg hv]
          have hdir := scanDirF_isSome fs factory future cancel fuel ref vis
            (if future then polls + 1 else polls) hfuel
          rcases Option.isSome_iff_exists.mp hdir with ⟨r1, hr1⟩
          rw [hr1]
          have hsubvis := (scanDirF_post fs factory future cancel fuel ref
            vis _ r1 hr1).1
          have hcardle : vis.card ≤ r1.visited.card :=
            Finset.card_le_card hsubvis
          have hrec := scanEntriesF_isSome fs factory future cancel fuel es
            r1.visited r1.polls (by omega)
          rcases Option.isSome_iff_exists.mp hrec with ⟨r2, hr2⟩
          simp only [Option.bind_some] at *
          rw [Option.some_bind]
          rw [hr2]
          rfl
      · by_cases hv : vcs = true
        · rw [if_pos hv]
          exact scanEntriesF_isSome fs factory future cancel fuel es vis _
            hfuel
        · rw [if_neg hv]
          have hrec := scanEntriesF_isSome fs factory future cancel fuel es
            vis (if future then polls + 1 else polls) hfuel
          rcases Option.isSome_iff_exists.mp hrec with ⟨r2, hr2⟩
          rw [hr2]
          rfl
termination_by es _vis _polls => (fuel, es.length + 1)
end

/-- C6.  For every file system — in particular one whose directory
references form symlink cycles — `scanForFiles` terminates with a result:
the recursion maintains the set of canonicalized visited directories,
returns immediately at any directory whose canonical path is already in the
set, and consequently the canonical directories recursed into (the trace)
are pairwise distinct and make up exactly the visited set. -/
theorem scanForFiles_terminates_no_revisit (fs : ScanFS)
    (factory : Path → FileN) (cancel : Nat → Bool) (ref : Nat) :
    ∃ r, scanForFiles fs factory cancel ref = some r ∧
      r.trace.Nodup ∧ r.visited = r.trace.toFinset := by
  have hs := scanDirF_isSome fs factory true cancel (fs.ndirs + 2) ref ∅ 0
    (by simp)
  rcases Option.isSome_iff_exists.mp hs with ⟨r, hr⟩
  have hp := scanDirF_post fs factory true cancel (fs.ndirs + 2) ref ∅ 0 r hr
  refine ⟨r, hr, hp.2.2.1, ?_⟩
  have h2 := hp.2.1
  simpa using h2

/-! ## C7: cooperative cancellation returns the accumulated partial
result -/

theorem scanEntriesF_flagged (fs : ScanFS) (factory : Path → FileN)
    (cancel : Nat → Bool) (hm : MonoFlag cancel) (fuel : Nat) :
    ∀ (es : List ScanEntry) (vis : Finset (Fin (fs.ndirs + 1)))
      (polls : Nat) (r : ScanRes fs.ndirs),
      cancel polls = true →
      scanEntriesF fs factory true cancel fuel es vis polls = some r →
      r.files = [] ∧ cancel r.polls = true
| [], vis, polls, r => by
    intro hcanc h
    rw [scanEntriesF] at h
    cases h
    exact ⟨rfl, hcanc⟩
| e :: es, vis, polls, r => by
    intro hcanc h
    rw [scanEntriesF] at h
    rw [if_pos (by simp [hcanc])] at h
    cases h
    exact ⟨rfl, hm polls (polls + 1) (Nat.le_succ polls) hcanc⟩

theorem scanDirF_flagged (fs : ScanFS) (factory : Path → FileN)
    (cancel : Nat → Bool) (hm : MonoFlag cancel) :
    ∀ (fuel ref : Nat) (vis : Finset (Fin (fs.ndirs + 1))) (polls : Nat)
      (r : ScanRes fs.ndirs),
      cancel polls = true →
      scanDirF fs factory true cancel fuel ref vis polls = some r →
      r.files = [] ∧ cancel r.polls = true
| 0, ref, vis, polls, r => by
    intro hc h
    rw [scanDirF] at h
    exact Option.noConfusion h
| fuel + 1, ref, vis, polls, r => by
    intro hcanc h
    rw [scanDirF] at h
    by_cases hc : fs.canon ref ∈ vis
    · rw [if_pos hc] at h
      cases h
      exact ⟨rfl, hcanc⟩
    · rw [if_neg hc] at h
      rcases Option.map_eq_some'.mp h with ⟨r1, h1, rfl⟩
      have hp := scanEntriesF_flagged fs factory cancel hm fuel
        (fs.entries (fs.canon ref)) (insert (fs.canon ref) vis) polls r1
        hcanc h1
      exact ⟨hp.1, hp.2⟩

mutual
theorem scanDirF_cancel_prefix (fs : ScanFS) (factory : Path → FileN)
    (cancel : Nat → Bool) (hm : MonoFlag cancel) :
    ∀ (fuel ref : Nat) (vis : Finset (Fin (fs.ndirs + 1))) (polls : Nat)
      (r1 r2 : ScanRes fs.ndirs),
      scanDirF fs factory true cancel fuel ref vis polls = some r1 →
      scanDirF fs factory true neverCancel fuel ref vis polls = some r2 →
      (r1.cancelled = false → r1 = r2) ∧ List.IsPrefix r1.files r2.files ∧
      (r1.cancelled = true → cancel r1.polls = true)
| 0, ref, vis, polls, r1, r2 => by
    intro h1 h2
    rw [scanDirF] at h1
    exact Option.noConfusion h1
| fuel + 1, ref, vis, polls, r1, r2 => by
    intro h1 h2
    rw [scanDirF] at h1 h2
    by_cases hc : fs.canon ref ∈ vis
    · rw [if_pos hc] at h1 h2
      cases h1
      cases h2
      exact ⟨fun _ => rfl, List.prefix_refl _, fun hcc => Bool.noConfusion hcc⟩
    · rw [if_neg hc] at h1 h2
      rcases Option.map_eq_some'.mp h1 with ⟨re1, he1, rfl⟩
      rcases Option.map_eq_some'.mp h2 with ⟨re2, he2, rfl⟩
      have hp := scanEntriesF_cancel_prefix fs factory cancel hm fuel
        (fs.entries (fs.canon ref)) (insert (fs.canon ref) vis) polls
        re1 re2 he1 he2
      refine ⟨?_, hp.2.1, hp.2.2⟩
      intro hcc
      rw [hp.1 hcc]
termination_by fuel _ref _vis _polls _r1 _r2 => (fuel, 0)

theorem scanEntriesF_cancel_prefix (fs : ScanFS) (factory : Path → FileN)
    (cancel : Nat → Bool) (hm : MonoFlag cancel) (fuel : Nat) :
    ∀ (es : List ScanEntry) (vis : Finset (Fin (fs.ndirs + 1)))
      (polls : Nat) (r1 r2 : ScanRes fs.ndirs),
      scanEntriesF fs factory true cancel fuel es vis polls = some r1 →
      scanEntriesF fs factory true neverCancel fuel es vis polls = some r2 →
      (r1.cancelled = false → r1 = r2) ∧ List.IsPrefix r1.files r2.files ∧
      (r1.cancelled = true → cancel r1.polls = true)
| [], vis, polls, r1, r2 => by
    intro h1 h2
    rw [scanEntriesF] at h1 h2
    cases h1
    cases h2
    exact ⟨fun _ => rfl, List.prefix_refl _, fun hcc => Bool.noConfusion hcc⟩
| e :: es, vis, polls, r1, r2 => by
    intro h1 h2
    rw [scanEntriesF] at h1 h2
    rw [if_neg (by simp [neverCancel])] at h2
    by_cases hcp : cancel polls = true
    · rw [if_pos (by simp [hcp])] at h1
      cases h1
      exact ⟨fun hcc => Bool.noConfusion hcc, List.nil_prefix,
        fun _ => hm polls (polls + 1) (Nat.le_succ polls) hcp⟩
    · rw [if_neg (by simp [hcp])] at h1
      rcases e with ⟨ref, vcs⟩ | ⟨p, vcs⟩ <;> dsimp only at h1 h2
      · by_cases hv : vcs = true
        · rw [if_pos hv] at h1 h2
          exact scanEntriesF_cancel_prefix fs factory cancel hm fuel es vis
            (polls + 1) r1 r2 h1 h2
        · rw [if_neg hv] at h1 h2
          rcases Option.bind_eq_some.mp h1 with ⟨r1d, h1d, h1r⟩
          rcases Option.map_eq_some'.mp h1r with ⟨r1e, h1e, rfl⟩
          rcases Option.bind_eq_some.mp h2 with ⟨r2d, h2d, h2r⟩
          rcases Option.map_eq_some'.mp h2r with ⟨r2e, h2e, rfl⟩
          have hdir := scanDirF_cancel_prefix fs factory cancel hm fuel ref
            vis (polls + 1) r1d r2d h1d h2d
          by_cases hdc : r1d.cancelled = true
          · have hflagd : cancel r1d.polls = true := hdir.2.2 hdc
            have hflag := scanEntriesF_flagged fs factory cancel hm fuel es
              r1d.visited r1d.polls r1e hflagd h1e
            refine ⟨?_, ?_, ?_⟩
            · intro hcc
              rw [show (⟨r1d.files ++ r1e.files, r1e.visited, r1e.polls,
                  r1d.trace ++ r1e.trace, r1d.cancelled || r1e.cancelled⟩ :
                  ScanRes fs.ndirs).cancelled =
                  (r1d.cancelled || r1e.cancelled) from rfl, hdc] at hcc
              simp at hcc
            · show List.IsPrefix (r1d.files ++ r1e.files)
                (r2d.files ++ r2e.files)
              rw [hflag.1, List.append_nil]
              exact hdir.2.1.trans (List.prefix_append r2d.files r2e.files)
            · intro _
              exact hflag.2
          · have hdeq : r1d = r2d :=
              hdir.1 (Bool.eq_false_iff.mpr hdc)
            rw [← hdeq] at h2e
            have hent := scanEntriesF_cancel_prefix fs factory cancel hm fuel
              es r1d.visited r1d.polls r1e r2e h1e h2e
            refine ⟨?_, ?_, ?_⟩
            · intro hcc
              have hcc2 : (r1d.cancelled || r1e.cancelled) = false := hcc
              have hee : r1e.cancelled = false :=
                (Bool.or_eq_false_iff.mp hcc2).2
              have heeq : r1e = r2e := hent.1 hee
              rw [← hdeq, ← heeq]
            · show List.IsPrefix (r1d.files ++ r1e.files)
                (r2d.files ++ r2e.files)
              rw [← hdeq]
              exact (List.prefix_append_right_inj r1d.files).mpr hent.2.1
            · intro hcc
              have hcc2 : (r1d.cancelled || r1e.cancelled) = true := hcc
              have hdf : r1d.cancelled = false := Bool.eq_false_iff.mpr hdc
              rw [hdf, Bool.false_or] at hcc2
              exact hent.2.2 hcc2
      · by_cases hv : vcs = true
        · rw [if_pos hv] at h1 h2
          exact scanEntriesF_cancel_prefix fs factory cancel hm fuel es vis
            (polls + 1) r1 r2 h1 h2
        · rw [if_neg hv] at h1 h2
          rcases Option.map_eq_some'.mp h1 with ⟨r1e, h1e, rfl⟩
          rcases Option.map_eq_some'.mp h2 with ⟨r2e, h2e, rfl⟩
          have hp := scanEntriesF_cancel_prefix fs factory cancel hm fuel es
            vis (polls + 1) r1e r2e h1e h2e
          refine ⟨?_, ?_, hp.2.2⟩
          · intro hcc
            rw [hp.1 hcc]
          · exact (List.cons_prefix_cons).mpr ⟨rfl, hp.2.1⟩
termination_by es _vis _polls _r1 _r2 => (fuel, es.length + 1)
end

/-- C7.  With a monotone cancellation flag (once set it stays set, as for
`QFutureInterface::isCanceled`), a cancelled scan still returns normally
(`some` result, never an error): the flag is polled at each directory-entry
boundary, and the files returned are the accumulated prefix of what the
never-cancelled scan of the same tree returns — a possibly-partial result;
when no poll saw the flag set, the result is the full one. -/
theorem scanForFiles_cancelled_partial (fs : ScanFS) (factory : Path → FileN)
    (cancel : Nat → Bool) (ref : Nat) (hm : MonoFlag cancel) :
    ∃ r1 r2, scanForFiles fs factory cancel ref = some r1 ∧
      scanForFiles fs factory neverCancel ref = some r2 ∧
      List.IsPrefix r1.files r2.files ∧ (r1.cancelled = false → r1 = r2) := by
  have hs1 := scanDirF_isSome fs factory true cancel (fs.ndirs + 2) ref ∅ 0
    (by simp)
  have hs2 := scanDirF_isSome fs factory true neverCancel (fs.ndirs + 2) ref
    ∅ 0 (by simp)
  rcases Option.isSome_iff_exists.mp hs1 with ⟨r1, hr1⟩
  rcases Option.isSome_iff_exists.mp hs2 with ⟨r2, hr2⟩
  have hp := scanDirF_cancel_prefix fs factory cancel hm (fs.ndirs + 2) ref
    ∅ 0 r1 r2 hr1 hr2
  exact ⟨r1, r2, hr1, hr2, hp.2.1, hp.1⟩

/-- Witness for C7 on a concrete two-directory tree with a flag that fires
from the second poll on. -/
theorem scanForFiles_cancelled_partial_witness :
    ∃ r1 r2, scanForFiles twoDirFS idFactory cancelFromOne 0 = some r1 ∧
      scanForFiles twoDirFS idFactory neverCancel 0 = some r2 ∧
      List.IsPrefix r1.files r2.files ∧ (r1.cancelled = false → r1 = r2) :=
  scanForFiles_cancelled_partial twoDirFS idFactory cancelFromOne 0
    (by
      intro i j hij h
      simp only [cancelFromOne, decide_eq_true_eq] at *
      omega)

/-! ## C1: `buildTree` is idempotent

The proof goes through the multiset identity: after `buildTree t files b`,
the recursive file list of the result is a permutation of `files`. -/

theorem sortByPath_irrefl (a : FileN) : sortByPath a a = false := by
  simp [sortByPath]

theorem sortByPath_antisymm_eq {a b : FileN} (h1 : sortByPath a b = false)
    (h2 : sortByPath b a = false) : a = b := by
  rcases a with ⟨pa⟩
  rcases b with ⟨pb⟩
  simp only [sortByPath, decide_eq_false_iff_not, not_lt] at h1 h2
  rw [FileN.mk.injEq]
  exact le_antisymm h2 h1

theorem sortedInsert_eq_insertLowerBound (lt : α → α → Bool) (x : α) :
    ∀ l : List α,
      sortedInsert (fun a b => !(lt b a)) x l = insertLowerBound lt x l
| [] => rfl
| y :: ys => by
    rw [sortedInsert, insertLowerBound]
    cases hc : lt y x with
    | true => simp [hc, sortedInsert_eq_insertLowerBound lt x ys]
    | false => simp [hc]

theorem sortNodes_sortedBy (lt : α → α → Bool)
    (hasymm : ∀ a b : α, lt a b = true → lt b a = false)
    (htr : ∀ a b c : α, lt b a = false → lt c b = false → lt c a = false) :
    ∀ l : List α, SortedBy lt (sortNodes (fun a b => !(lt b a)) l)
| [] => List.Pairwise.nil
| x :: xs => by
    rw [sortNodes, sortedInsert_eq_insertLowerBound]
    exact sortedBy_insertLowerBound hasymm htr
      (sortNodes_sortedBy lt hasymm htr xs) x

theorem fileSortLe_eq : fileSortLe = fun a b => !(sortByPath b a) := rfl

theorem sortNodes_fileSortLe_sortedBy (l : List FileN) :
    SortedBy sortByPath (sortNodes fileSortLe l) := by
  rw [fileSortLe_eq]
  exact sortNodes_sortedBy sortByPath fileLt_asymm fileLt_trans_neg l

theorem sortedBy_sortByPath_eq_of_perm {l1 l2 : List FileN}
    (hp : List.Perm l1 l2) (h1 : SortedBy sortByPath l1)
    (h2 : SortedBy sortByPath l2) : l1 = l2 := by
  refine @List.eq_of_perm_of_sorted FileN
    (fun a b => sortByPath b a = false) ⟨?_⟩ l1 l2 hp h1 h2
  intro a b hab hba
  exact sortByPath_antisymm_eq hba hab

theorem compareSortedLists_self : ∀ l : List FileN,
    compareSortedLists l l = ([], [])
| [] => by rw [compareSortedLists]
| o :: olds => by
    rw [compareSortedLists]
    rw [if_neg (by rw [sortByPath_irrefl o]; exact Bool.false_ne_true),
      if_neg (by rw [sortByPath_irrefl o]; exact Bool.false_ne_true)]
    exact compareSortedLists_self olds

theorem compareSortedLists_perm : ∀ old new : List FileN,
    List.Perm (old ++ (compareSortedLists old new).2)
      (new ++ (compareSortedLists old new).1)
| [], news => by simp [compareSortedLists, List.perm_append_comm]
| o :: olds, [] => by simp [compareSortedLists, List.perm_append_comm]
| o :: olds, n :: news => by
    rw [compareSortedLists]
    by_cases h1 : sortByPath o n = true
    · rw [if_pos h1]
      show List.Perm
        ((o :: olds) ++ (compareSortedLists olds (n :: news)).2)
        ((n :: news) ++ o :: (compareSortedLists olds (n :: news)).1)
      have ih := compareSortedLists_perm olds (n :: news)
      refine List.Perm.trans (List.Perm.cons o ih) ?_
      exact List.perm_middle.symm
    · rw [if_neg h1]
      by_cases h2 : sortByPath n o = true
      · rw [if_pos h2]
        show List.Perm
          ((o :: olds) ++ n :: (compareSortedLists (o :: olds) news).2)
          ((n :: news) ++ (compareSortedLists (o :: olds) news).1)
        have ih := compareSortedLists_perm (o :: olds) news
        exact List.perm_middle.trans (List.Perm.cons n ih)
      · rw [if_neg h2]
        have heq : o = n := sortByPath_antisymm_eq
          (Bool.eq_false_iff.mpr h1) (Bool.eq_false_iff.mpr h2)
        subst heq
        show List.Perm ((o :: olds) ++ (compareSortedLists olds news).2)
          ((o :: news) ++ (compareSortedLists olds news).1)
        exact List.Perm.cons o (compareSortedLists_perm olds news)
termination_by old new => old.length + new.length

theorem compareSortedLists_deleted_le : ∀ old new : List FileN,
    (↑(compareSortedLists old new).1 : Multiset FileN) ≤ ↑old
| [], news => by simp [compareSortedLists]
| o :: olds, [] => by simp [compareSortedLists]
| o :: olds, n :: news => by
    rw [compareSortedLists]
    by_cases h1 : sortByPath o n = true
    · rw [if_pos h1]
      show (↑(o :: (compareSortedLists olds (n :: news)).1) :
        Multiset FileN) ≤ ↑(o :: olds)
      rw [← Multiset.cons_coe, ← Multiset.cons_coe]
      exact Multiset.cons_le_cons o
        (compareSortedLists_deleted_le olds (n :: news))
    · rw [if_neg h1]
      by_cases h2 : sortByPath n o = true
      · rw [if_pos h2]
        exact compareSortedLists_deleted_le (o :: olds) news
      · rw [if_neg h2]
        refine le_trans (compareSortedLists_deleted_le olds news) ?_
        rw [← Multiset.cons_coe]
        exact Multiset.le_cons_self (↑olds) o
termination_by old new => old.length + new.length

theorem recursiveFileNodesL_perm {l1 l2 : List FolderT}
    (h : List.Perm l1 l2) :
    List.Perm (recursiveFileNodesL l1) (recursiveFileNodesL l2) := by
  induction h with
  | nil => exact List.Perm.refl _
  | cons x h ih =>
      simp only [recursiveFileNodesL_cons]
      exact List.Perm.append_left (recursiveFileNodes x) ih
  | swap x y l =>
      simp only [recursiveFileNodesL_cons]
      rw [← List.append_assoc, ← List.append_assoc]
      exact List.Perm.append_right (recursiveFileNodesL l)
        List.perm_append_comm
  | trans h1 h2 ih1 ih2 => exact ih1.trans ih2

mutual
theorem addFileAtParts_perm :
    ∀ (parts : List Seg) (t : FolderT) (cur : Path) (fn : FileN),
      List.Perm (recursiveFileNodes (addFileAtParts parts t cur fn))
        (fn :: recursiveFileNodes t)
| [], .mk p v pr dn fs sub, cur, fn => by
    rw [addFileAtParts]
    simp only [recursiveFileNodes_mk]
    exact List.Perm.append_right (recursiveFileNodesL sub)
      (insertNodeSorted_perm fileLt fs fn)
| part :: rest, .mk p v pr dn fs sub, cur, fn => by
    rw [addFileAtParts]
    by_cases hany : sub.any (fun c => decide (c.path = cur ++ [part])) = true
    · rw [if_pos hany]
      simp only [recursiveFileNodes_mk]
      have hp := addIntoFirst_perm rest sub (cur ++ [part]) fn hany
      refine List.Perm.trans (List.Perm.append_left fs hp) ?_
      exact List.perm_middle
    · rw [if_neg hany]
      simp only [recursiveFileNodes_mk]
      have hins : List.Perm
          (addNodesSorted folderLt
            [addFileAtParts rest (newFolder (cur ++ [part]) part)
              (cur ++ [part]) fn] sub)
          (addFileAtParts rest (newFolder (cur ++ [part]) part)
            (cur ++ [part]) fn :: sub) :=
        insertNodeSorted_perm folderLt sub _
      have hrecL := recursiveFileNodesL_perm hins
      have hchild := addFileAtParts_perm rest
        (newFolder (cur ++ [part]) part) (cur ++ [part]) fn
      have hchild2 : List.Perm
          (recursiveFileNodes (addFileAtParts rest
            (newFolder (cur ++ [part]) part) (cur ++ [part]) fn)) [fn] :=
        hchild
      refine List.Perm.trans (List.Perm.append_left fs hrecL) ?_
      simp only [recursiveFileNodesL_cons]
      refine List.Perm.trans
        (List.Perm.append_left fs
          (List.Perm.append_right (recursiveFileNodesL sub) hchild2)) ?_
      show List.Perm (fs ++ ([fn] ++ recursiveFileNodesL sub))
        (fn :: (fs ++ recursiveFileNodesL sub))
      exact List.perm_middle
termination_by parts _t _cur _fn => (parts.length, 0)

theorem addIntoFirst_perm :
    ∀ (rest : List Seg) (cs : List FolderT) (next : Path) (fn : FileN),
      cs.any (fun c => decide (c.path = next)) = true →
      List.Perm (recursiveFileNodesL (addIntoFirst rest cs next fn))
        (fn :: recursiveFileNodesL cs)
| rest, [], next, fn => by
    intro h
    simp at h
| rest, c :: cs, next, fn => by
    intro hany
    rw [addIntoFirst]
    by_cases hc : c.path = next
    · rw [if_pos hc]
      simp only [recursiveFileNodesL_cons]
      exact List.Perm.append_right (recursiveFileNodesL cs)
        (addFileAtParts_perm rest c next fn)
    · rw [if_neg hc]
      simp only [recursiveFileNodesL_cons]
      have hany2 : cs.any (fun c => decide (c.path = next)) = true := by
        rcases List.any_eq_true.mp hany with ⟨x, hx, hxp⟩
        rcases List.mem_cons.mp hx with rfl | hx
        · exact absurd (of_decide_eq_true hxp) hc
        · exact List.any_eq_true.mpr ⟨x, hx, hxp⟩
      refine List.Perm.trans
        (List.Perm.append_left (recursiveFileNodes c)
          (addIntoFirst_perm rest cs next fn hany2)) ?_
      exact List.perm_middle
termination_by rest cs _next _fn => (rest.length, cs.length + 1)
end

theorem addFileToTree_perm (b : Path) (t : FolderT) (fn : FileN) :
    List.Perm (recursiveFileNodes (addFileToTree b t fn))
      (fn :: recursiveFileNodes t) := by
  unfold addFileToTree
  exact addFileAtParts_perm _ t _ fn

theorem addFiles_foldl_perm (b : Path) :
    ∀ (added : List FileN) (t : FolderT),
      List.Perm (recursiveFileNodes (added.foldl (addFileToTree b) t))
        (added ++ recursiveFileNodes t)
| [], t => List.Perm.refl _
| a :: rest, t => by
    simp only [List.foldl_cons]
    have ih := addFiles_foldl_perm b rest (addFileToTree b t a)
    refine ih.trans ?_
    refine (List.Perm.append_left rest (addFileToTree_perm b t a)).trans ?_
    exact List.perm_middle

theorem coe_append_ms (l1 l2 : List FileN) :
    (↑(l1 ++ l2) : Multiset FileN) = ↑l1 + ↑l2 := rfl

theorem removeListed_ms : ∀ fs del : List FileN,
    (↑(removeListed fs del).1 : Multiset FileN) + ↑del =
      ↑fs + ↑(removeListed fs del).2.1
| [], del => by simp [removeListed]
| f :: fs, del => by
    rw [removeListed]
    by_cases hf : f ∈ del
    · rw [if_pos hf]
      have ih := removeListed_ms fs (del.erase f)
      have hdel : (↑del : Multiset FileN) = f ::ₘ ↑(del.erase f) := by
        rw [Multiset.cons_coe]
        exact Multiset.coe_eq_coe.mpr (List.perm_cons_erase hf)
      show (↑(removeListed fs (del.erase f)).1 : Multiset FileN) + ↑del =
        ↑(f :: fs) + ↑(removeListed fs (del.erase f)).2.1
      rw [hdel, Multiset.add_cons, ih, ← Multiset.cons_add,
        Multiset.cons_coe]
    · rw [if_neg hf]
      have ih := removeListed_ms fs del
      show (↑(f :: (removeListed fs del).1) : Multiset FileN) + ↑del =
        ↑(f :: fs) + ↑(removeListed fs del).2.1
      rw [← Multiset.cons_coe, ← Multiset.cons_coe, Multiset.cons_add, ih,
        Multiset.cons_add]

theorem removeListed_del_le : ∀ fs del : List FileN,
    (↑(removeListed fs del).2.1 : Multiset FileN) ≤ ↑del
| [], del => le_refl _
| f :: fs, del => by
    rw [removeListed]
    by_cases hf : f ∈ del
    · rw [if_pos hf]
      refine le_trans (removeListed_del_le fs (del.erase f)) ?_
      exact Multiset.coe_le.mpr (List.erase_sublist f del).subperm
    · rw [if_neg hf]
      exact removeListed_del_le fs del

theorem removeListed_kept_not_mem : ∀ (fs del : List FileN) (f : FileN),
    f ∈ (removeListed fs del).1 → f ∉ (removeListed fs del).2.1
| [], del, f => by
    intro hmem
    simp [removeListed] at hmem
| g :: fs, del, f => by
    intro hmem
    rw [removeListed] at hmem ⊢
    by_cases hg : g ∈ del
    · rw [if_pos hg] at hmem ⊢
      exact removeListed_kept_not_mem fs (del.erase g) f hmem
    · rw [if_neg hg] at hmem ⊢
      rcases List.mem_cons.mp hmem with rfl | hmem
      · intro hin
        exact hg (Multiset.mem_coe.mp
          (Multiset.mem_of_le (removeListed_del_le fs del)
            (Multiset.mem_coe.mpr hin)))
      · exact removeListed_kept_not_mem fs del f hmem

theorem removeListed_no_hit : ∀ fs del : List FileN,
    (∀ f ∈ fs, f ∉ del) → removeListed fs del = (fs, del, false)
| [], del => by intro _; rfl
| f :: fs, del => by
    intro h
    rw [removeListed, if_neg (h f (List.mem_cons_self f fs)),
      removeListed_no_hit fs del (fun g hg => h g (List.mem_cons_of_mem f hg))]

theorem recursiveFileNodes_eq_nil_of_empty : ∀ t : FolderT,
    t.files = [] → t.folders = [] → recursiveFileNodes t = []
| .mk p v pr dn fs sub => by
    intro h1 h2
    simp only [FolderT.files] at h1
    simp only [FolderT.folders] at h2
    subst h1; subst h2
    rfl

mutual
theorem removeDeletedAndPrune_ms : ∀ (t : FolderT) (del : List FileN),
    (↑(recursiveFileNodes (removeDeletedAndPrune t del).1) : Multiset FileN)
        + ↑del =
      ↑(recursiveFileNodes t) + ↑(removeDeletedAndPrune t del).2.1
| .mk p v pr dn fs sub, del => by
    rw [removeDeletedAndPrune]
    show (↑(recursiveFileNodes (FolderT.mk p v pr dn (removeListed fs del).1
        (removeDeletedAndPruneL sub (removeListed fs del).2.1).1)) :
        Multiset FileN) + ↑del =
      ↑(recursiveFileNodes (FolderT.mk p v pr dn fs sub)) +
        ↑(removeDeletedAndPruneL sub (removeListed fs del).2.1).2.1
    have h1 := removeListed_ms fs del
    have h2 := removeDeletedAndPruneL_ms sub (removeListed fs del).2.1
    simp only [recursiveFileNodes_mk, coe_append_ms]
    rw [add_right_comm, h1, add_assoc,
      add_comm (↑(removeListed fs del).2.1 : Multiset FileN) _, h2,
      ← add_assoc]

theorem removeDeletedAndPruneL_ms : ∀ (cs : List FolderT) (del : List FileN),
    (↑(recursiveFileNodesL (removeDeletedAndPruneL cs del).1) :
        Multiset FileN) + ↑del =
      ↑(recursiveFileNodesL cs) + ↑(removeDeletedAndPruneL cs del).2.1
| [], del => by simp [removeDeletedAndPruneL]
| c :: cs, del => by
    rw [removeDeletedAndPruneL]
    have h1 := removeDeletedAndPrune_ms c del
    have h2 := removeDeletedAndPruneL_ms cs (removeDeletedAndPrune c del).2.1
    by_cases hdrop : ((removeDeletedAndPrune c del).2.2 &&
        (removeDeletedAndPrune c del).1.files.isEmpty &&
        (removeDeletedAndPrune c del).1.folders.isEmpty) = true
    · rw [if_pos hdrop]
      show (↑(recursiveFileNodesL
          (removeDeletedAndPruneL cs (removeDeletedAndPrune c del).2.1).1) :
          Multiset FileN) + ↑del =
        ↑(recursiveFileNodesL (c :: cs)) +
          ↑(removeDeletedAndPruneL cs (removeDeletedAndPrune c del).2.1).2.1
      rcases Bool.and_eq_true_iff.mp hdrop with ⟨h12, hfo⟩
      rcases Bool.and_eq_true_iff.mp h12 with ⟨-, hfi⟩
      have hcempty : recursiveFileNodes (removeDeletedAndPrune c del).1 = [] :=
        recursiveFileNodes_eq_nil_of_empty _
          (List.isEmpty_iff.mp hfi) (List.isEmpty_iff.mp hfo)
      rw [hcempty] at h1
      have h1b : (↑del : Multiset FileN) =
          ↑(recursiveFileNodes c) + ↑(removeDeletedAndPrune c del).2.1 := by
        have := h1
        rwa [show ((↑([] : List FileN) : Multiset FileN) = 0) from rfl,
          zero_add] at this
      simp only [recursiveFileNodesL_cons, coe_append_ms]
      rw [h1b, ← add_assoc,
        add_comm (↑(recursiveFileNodesL
          (removeDeletedAndPruneL cs (removeDeletedAndPrune c del).2.1).1) :
          Multiset FileN) (↑(recursiveFileNodes c) : Multiset FileN),
        add_assoc, h2, ← add_assoc]
    · rw [if_neg hdrop]
      show (↑(recursiveFileNodesL ((removeDeletedAndPrune c del).1 ::
          (removeDeletedAndPruneL cs (removeDeletedAndPrune c del).2.1).1)) :
          Multiset FileN) + ↑del =
        ↑(recursiveFileNodesL (c :: cs)) +
          ↑(removeDeletedAndPruneL cs (removeDeletedAndPrune c del).2.1).2.1
      simp only [recursiveFileNodesL_cons, coe_append_ms]
      rw [add_right_comm, h1, add_assoc,
        add_comm (↑(removeDeletedAndPrune c del).2.1 : Multiset FileN) _, h2,
        ← add_assoc]
end

mutual
theorem removeDeletedAndPrune_del_le : ∀ (t : FolderT) (del : List FileN),
    (↑(removeDeletedAndPrune t del).2.1 : Multiset FileN) ≤ ↑del
| .mk p v pr dn fs sub, del => by
    rw [removeDeletedAndPrune]
    show (↑(removeDeletedAndPruneL sub (removeListed fs del).2.1).2.1 :
      Multiset FileN) ≤ ↑del
    exact le_trans
      (removeDeletedAndPruneL_del_le sub (removeListed fs del).2.1)
      (removeListed_del_le fs del)

theorem removeDeletedAndPruneL_del_le : ∀ (cs : List FolderT)
    (del : List FileN),
    (↑(removeDeletedAndPruneL cs del).2.1 : Multiset FileN) ≤ ↑del
| [], del => le_refl _
| c :: cs, del => by
    rw [removeDeletedAndPruneL]
    show (↑(removeDeletedAndPruneL cs
      (removeDeletedAndPrune c del).2.1).2.1 : Multiset FileN) ≤ ↑del
    exact le_trans
      (removeDeletedAndPruneL_del_le cs (removeDeletedAndPrune c del).2.1)
      (removeDeletedAndPrune_del_le c del)
end

mutual
theorem removeDeletedAndPrune_kept_not_mem : ∀ (t : FolderT)
    (del : List FileN) (f : FileN),
    f ∈ recursiveFileNodes (removeDeletedAndPrune t del).1 →
    f ∉ (removeDeletedAndPrune t del).2.1
| .mk p v pr dn fs sub, del, f => by
    intro hmem
    rw [removeDeletedAndPrune] at hmem ⊢
    simp only [recursiveFileNodes_mk, List.mem_append] at hmem
    show f ∉ (removeDeletedAndPruneL sub (removeListed fs del).2.1).2.1
    rcases hmem with hmem | hmem
    · intro hin
      refine removeListed_kept_not_mem fs del f hmem ?_
      exact Multiset.mem_coe.mp (Multiset.mem_of_le
        (removeDeletedAndPruneL_del_le sub (removeListed fs del).2.1)
        (Multiset.mem_coe.mpr hin))
    · exact removeDeletedAndPruneL_kept_not_mem sub
        (removeListed fs del).2.1 f hmem

theorem removeDeletedAndPruneL_kept_not_mem : ∀ (cs : List FolderT)
    (del : List FileN) (f : FileN),
    f ∈ recursiveFileNodesL (removeDeletedAndPruneL cs del).1 →
    f ∉ (removeDeletedAndPruneL cs del).2.1
| [], del, f => by
    intro hmem
    simp [removeDeletedAndPruneL] at hmem
| c :: cs, del, f => by
    intro hmem
    rw [removeDeletedAndPruneL] at hmem ⊢
    by_cases hdrop : ((removeDeletedAndPrune c del).2.2 &&
        (removeDeletedAndPrune c del).1.files.isEmpty &&
        (removeDeletedAndPrune c del).1.folders.isEmpty) = true
    · rw [if_pos hdrop] at hmem ⊢
      exact removeDeletedAndPruneL_kept_not_mem cs
        (removeDeletedAndPrune c del).2.1 f hmem
    · rw [if_neg hdrop] at hmem ⊢
      simp only [recursiveFileNodesL_cons, List.mem_append] at hmem
      show f ∉ (removeDeletedAndPruneL cs
        (removeDeletedAndPrune c del).2.1).2.1
      rcases hmem with hmem | hmem
      · intro hin
        refine removeDeletedAndPrune_kept_not_mem c del f hmem ?_
        exact Multiset.mem_coe.mp (Multiset.mem_of_le
          (removeDeletedAndPruneL_del_le cs (removeDeletedAndPrune c del).2.1)
          (Multiset.mem_coe.mpr hin))
      · exact removeDeletedAndPruneL_kept_not_mem cs
          (removeDeletedAndPrune c del).2.1 f hmem
end

mutual
theorem removeDeletedAndPrune_no_hit : ∀ (t : FolderT) (del : List FileN),
    (∀ f ∈ recursiveFileNodes t, f ∉ del) →
    removeDeletedAndPrune t del = (t, del, false)
| .mk p v pr dn fs sub, del => by
    intro h
    rw [removeDeletedAndPrune]
    have h1 : removeListed fs del = (fs, del, false) :=
      removeListed_no_hit fs del
        (fun f hf => h f (by simp [List.mem_append, hf]))
    have h2 : removeDeletedAndPruneL sub del = (sub, del, false) :=
      removeDeletedAndPruneL_no_hit sub del
        (fun f hf => h f (by simp [List.mem_append, hf]))
    rw [h1]
    show (FolderT.mk p v pr dn fs (removeDeletedAndPruneL sub del).1,
      (removeDeletedAndPruneL sub del).2.1,
      false || (removeDeletedAndPruneL sub del).2.2) =
      (FolderT.mk p v pr dn fs sub, del, false)
    rw [h2]
    rfl

theorem removeDeletedAndPruneL_no_hit : ∀ (cs : List FolderT)
    (del : List FileN),
    (∀ f ∈ recursiveFileNodesL cs, f ∉ del) →
    removeDeletedAndPruneL cs del = (cs, del, false)
| [], del => by intro _; rfl
| c :: cs, del => by
    intro h
    rw [removeDeletedAndPruneL]
    have h1 : removeDeletedAndPrune c del = (c, del, false) :=
      removeDeletedAndPrune_no_hit c del
        (fun f hf => h f (by simp [List.mem_append, hf]))
    have h2 : removeDeletedAndPruneL cs del = (cs, del, false) :=
      removeDeletedAndPruneL_no_hit cs del
        (fun f hf => h f (by simp [List.mem_append, hf]))
    rw [h1]
    show ((if false && c.files.isEmpty && c.folders.isEmpty then
        (removeDeletedAndPruneL cs del).1
      else c :: (removeDeletedAndPruneL cs del).1),
      (removeDeletedAndPruneL cs del).2.1,
      false || (removeDeletedAndPruneL cs del).2.2) =
      (c :: cs, del, false)
    rw [h2]
    simp
end

theorem removeDeletedAndPrune_nil (t : FolderT) :
    removeDeletedAndPrune t [] = (t, [], false) :=
  removeDeletedAndPrune_no_hit t []
    (fun f _ => List.not_mem_nil f)

/-- The multiset heart of C1: after `buildTree t files b` the recursive
file list of the result holds exactly the incoming files. -/
theorem buildTree_files_ms (t : FolderT) (files : List FileN) (b : Path) :
    (↑(recursiveFileNodes (buildTree t files b)) : Multiset FileN) =
      ↑files := by
  unfold buildTree
  have hfold := addFiles_foldl_perm b (buildTreeDiff t files).2 t
  have ht1 : (↑(recursiveFileNodes
      ((buildTreeDiff t files).2.foldl (addFileToTree b) t)) :
      Multiset FileN) =
      ↑(buildTreeDiff t files).2 + ↑(recursiveFileNodes t) := by
    rw [Multiset.coe_eq_coe.mpr hfold, coe_append_ms]
  have hms := removeDeletedAndPrune_ms
    ((buildTreeDiff t files).2.foldl (addFileToTree b) t)
    (buildTreeDiff t files).1
  have hcsl := compareSortedLists_perm
    (sortNodes fileSortLe (recursiveFileNodes t))
    (sortNodes fileSortLe files)
  have hcslms : (↑(recursiveFileNodes t) : Multiset FileN) +
      ↑(buildTreeDiff t files).2 =
      ↑files + ↑(buildTreeDiff t files).1 := by
    have h1 : (↑(sortNodes fileSortLe (recursiveFileNodes t)) :
        Multiset FileN) = ↑(recursiveFileNodes t) :=
      Multiset.coe_eq_coe.mpr (sortNodes_perm _ _)
    have h2 : (↑(sortNodes fileSortLe files) : Multiset FileN) = ↑files :=
      Multiset.coe_eq_coe.mpr (sortNodes_perm _ _)
    have h3 := Multiset.coe_eq_coe.mpr hcsl
    rw [coe_append_ms, coe_append_ms, h1, h2] at h3
    exact h3
  have hdel0 : (removeDeletedAndPrune
      ((buildTreeDiff t files).2.foldl (addFileToTree b) t)
      (buildTreeDiff t files).1).2.1 = [] := by
    by_contra hne
    rcases List.exists_mem_of_ne_nil _ hne with ⟨x, hx⟩
    have hx1 : x ∉ recursiveFileNodes (removeDeletedAndPrune
        ((buildTreeDiff t files).2.foldl (addFileToTree b) t)
        (buildTreeDiff t files).1).1 := by
      intro hmem
      exact removeDeletedAndPrune_kept_not_mem _ _ x hmem hx
    have hcount := congrArg (Multiset.count x) hms
    simp only [Multiset.count_add] at hcount
    have hc0 : Multiset.count x ↑(recursiveFileNodes (removeDeletedAndPrune
        ((buildTreeDiff t files).2.foldl (addFileToTree b) t)
        (buildTreeDiff t files).1).1) = 0 :=
      Multiset.count_eq_zero.mpr (fun hmem => hx1 (Multiset.mem_coe.mp hmem))
    have hcpos : 0 < Multiset.count x ↑(removeDeletedAndPrune
        ((buildTreeDiff t files).2.foldl (addFileToTree b) t)
        (buildTreeDiff t files).1).2.1 :=
      Multiset.count_pos.mpr (Multiset.mem_coe.mpr hx)
    have hledel : Multiset.count x ↑(buildTreeDiff t files).1 ≤
        Multiset.count x ↑(recursiveFileNodes t) := by
      have hle := compareSortedLists_deleted_le
        (sortNodes fileSortLe (recursiveFileNodes t))
        (sortNodes fileSortLe files)
      have h1 : (↑(sortNodes fileSortLe (recursiveFileNodes t)) :
          Multiset FileN) = ↑(recursiveFileNodes t) :=
        Multiset.coe_eq_coe.mpr (sortNodes_perm _ _)
      rw [h1] at hle
      exact Multiset.le_iff_count.mp hle x
    have hlet1 : Multiset.count x
        (↑(recursiveFileNodes t) : Multiset FileN) ≤
        Multiset.count x ↑(recursiveFileNodes
          ((buildTreeDiff t files).2.foldl (addFileToTree b) t)) := by
      rw [ht1, Multiset.count_add]
      omega
    omega
  rw [hdel0] at hms
  have hms2 : (↑(recursiveFileNodes (removeDeletedAndPrune
      ((buildTreeDiff t files).2.foldl (addFileToTree b) t)
      (buildTreeDiff t files).1).1) : Multiset FileN) +
      ↑(buildTreeDiff t files).1 =
      ↑files + ↑(buildTreeDiff t files).1 := by
    rw [hms]
    show (↑(recursiveFileNodes ((buildTreeDiff t files).2.foldl
        (addFileToTree b) t)) : Multiset FileN) + ↑([] : List FileN) =
      ↑files + ↑(buildTreeDiff t files).1
    rw [show ((↑([] : List FileN) : Multiset FileN) = 0) from rfl, add_zero,
      ht1, add_comm (↑(buildTreeDiff t files).2 : Multiset FileN) _, hcslms]
  exact add_right_cancel hms2

/-- C1.  `buildTree` is idempotent: running it a second time with a file
list holding the same paths computes empty `deleted` and `added` partitions,
and the second run changes the tree in no way (no file or folder node is
added or removed). -/
theorem buildTree_idempotent (t : FolderT) (fs fs2 : List FileN) (b : Path)
    (hsame : List.Perm fs2 fs) :
    buildTreeDiff (buildTree t fs b) fs2 = ([], []) ∧
    buildTree (buildTree t fs b) fs2 b = buildTree t fs b := by
  have hperm : List.Perm (recursiveFileNodes (buildTree t fs b)) fs :=
    Multiset.coe_eq_coe.mp (buildTree_files_ms t fs b)
  have heq : sortNodes fileSortLe (recursiveFileNodes (buildTree t fs b)) =
      sortNodes fileSortLe fs2 := by
    refine sortedBy_sortByPath_eq_of_perm ?_
      (sortNodes_fileSortLe_sortedBy _) (sortNodes_fileSortLe_sortedBy _)
    refine (sortNodes_perm _ _).trans ?_
    refine (hperm.trans hsame.symm).trans ?_
    exact (sortNodes_perm fileSortLe fs2).symm
  have hdiff : buildTreeDiff (buildTree t fs b) fs2 = ([], []) := by
    unfold buildTreeDiff
    rw [heq]
    exact compareSortedLists_self _
  refine ⟨hdiff, ?_⟩
  show (removeDeletedAndPrune
      ((buildTreeDiff (buildTree t fs b) fs2).2.foldl (addFileToTree b)
        (buildTree t fs b))
      (buildTreeDiff (buildTree t fs b) fs2).1).1 = buildTree t fs b
  rw [hdiff]
  show (removeDeletedAndPrune (buildTree t fs b) []).1 = buildTree t fs b
  rw [removeDeletedAndPrune_nil]

/-- Witness for C1: rebuilding `rootFolder` from the same two files twice;
the second diff is empty and the second run returns the same tree. -/
theorem buildTree_idempotent_witness :
    buildTreeDiff (buildTree rootFolder [bFile, aFile] []) [aFile, bFile] =
      ([], []) ∧
    buildTree (buildTree rootFolder [bFile, aFile] []) [aFile, bFile] [] =
      buildTree rootFolder [bFile, aFile] [] :=
  buildTree_idempotent rootFolder [bFile, aFile] [aFile, bFile] []
    (by decide)

/-! ## C2: buildTree prunes a directory chain emptied by a deletion -/

theorem recursiveFileNodes_chainFold :
    ∀ (ms : List (Path × Bool × Int × Path)) (t : FolderT),
    recursiveFileNodes (chainFold ms t) = recursiveFileNodes t
| [], t => rfl
| (p, v, pr, dn) :: ms, t => by
    simp only [chainFold, recursiveFileNodes_mk, recursiveFileNodesL_cons,
      recursiveFileNodesL_nil, List.nil_append, List.append_nil]
    exact recursiveFileNodes_chainFold ms t

theorem compareSortedLists_cons_self : ∀ (o : FileN) (olds : List FileN),
    SortedBy sortByPath (o :: olds) →
    compareSortedLists (o :: olds) olds = ([o], [])
| o, [] => by
    intro _
    rw [compareSortedLists]
| o, n :: rest => by
    intro hs
    have hno : sortByPath n o = false :=
      (List.pairwise_cons.mp hs).1 n (List.mem_cons_self n rest)
    rw [compareSortedLists]
    by_cases hon : sortByPath o n = true
    · rw [if_pos hon, compareSortedLists_self]
    · have hon' : sortByPath o n = false := by
        revert hon; cases sortByPath o n <;> simp
      have heq : o = n := sortByPath_antisymm_eq hon' hno
      rw [if_neg hon, if_neg (by rw [hno]; simp), heq]
      exact compareSortedLists_cons_self n rest (hs.of_cons)

theorem compareSortedLists_erase : ∀ (l : List FileN),
    SortedBy sortByPath l → ∀ pf ∈ l,
    compareSortedLists l (l.erase pf) = ([pf], [])
| [] => by
    intro _ pf hpf
    exact absurd hpf (List.not_mem_nil pf)
| o :: olds => by
    intro hs pf hpf
    by_cases ho : o = pf
    · subst ho
      rw [List.erase_cons_head]
      exact compareSortedLists_cons_self o olds hs
    · have hpf' : pf ∈ olds := by
        rcases List.mem_cons.mp hpf with rfl | h
        · exact absurd rfl ho
        · exact h
      rw [List.erase_cons_tail (by simp [ho]), compareSortedLists,
        if_neg (by rw [sortByPath_irrefl]; simp),
        if_neg (by rw [sortByPath_irrefl]; simp)]
      exact compareSortedLists_erase olds (hs.of_cons) pf hpf'

theorem removeDeletedAndPruneL_nil (cs : List FolderT) :
    removeDeletedAndPruneL cs [] = (cs, [], false) :=
  removeDeletedAndPruneL_no_hit cs [] (fun f _ => List.not_mem_nil f)

theorem removeDeletedAndPruneL_append :
    ∀ (l1 l2 : List FolderT) (del : List FileN),
    (∀ f ∈ recursiveFileNodesL l1, f ∉ del) →
    removeDeletedAndPruneL (l1 ++ l2) del =
      (l1 ++ (removeDeletedAndPruneL l2 del).1,
       (removeDeletedAndPruneL l2 del).2.1,
       (removeDeletedAndPruneL l2 del).2.2)
| [], l2, del => by
    intro _
    simp
| c :: l1, l2, del => by
    intro h
    rw [List.cons_append, removeDeletedAndPruneL]
    have hc : removeDeletedAndPrune c del = (c, del, false) :=
      removeDeletedAndPrune_no_hit c del
        (fun f hf => h f (by simp [List.mem_append, hf]))
    rw [hc]
    show ((if false && c.files.isEmpty && c.folders.isEmpty then
        (removeDeletedAndPruneL (l1 ++ l2) del).1
      else c :: (removeDeletedAndPruneL (l1 ++ l2) del).1),
      (removeDeletedAndPruneL (l1 ++ l2) del).2.1,
      false || (removeDeletedAndPruneL (l1 ++ l2) del).2.2) =
      (c :: l1 ++ (removeDeletedAndPruneL l2 del).1,
       (removeDeletedAndPruneL l2 del).2.1,
       (removeDeletedAndPruneL l2 del).2.2)
    rw [removeDeletedAndPruneL_append l1 l2 del
      (fun f hf => h f (by simp [List.mem_append, hf]))]
    simp

theorem chainFold_rdp : ∀ (ms : List (Path × Bool × Int × Path)) (lp : Path)
    (lv : Bool) (lpr : Int) (ldn : Path) (pf : FileN),
    (removeDeletedAndPrune
        (chainFold ms (FolderT.mk lp lv lpr ldn [pf] [])) [pf]).2.1 = [] ∧
    (removeDeletedAndPrune
        (chainFold ms (FolderT.mk lp lv lpr ldn [pf] [])) [pf]).2.2 = true ∧
    (removeDeletedAndPrune
        (chainFold ms (FolderT.mk lp lv lpr ldn [pf] [])) [pf]).1.files = [] ∧
    (removeDeletedAndPrune
        (chainFold ms (FolderT.mk lp lv lpr ldn [pf] [])) [pf]).1.folders = []
| [], lp, lv, lpr, ldn, pf => by
    have h1 : removeListed [pf] [pf] = ([], [], true) := by
      simp [removeListed]
    have h2 : removeDeletedAndPrune (FolderT.mk lp lv lpr ldn [pf] []) [pf] =
        (FolderT.mk lp lv lpr ldn [] [], [], true) := by
      rw [removeDeletedAndPrune, h1]
      show (FolderT.mk lp lv lpr ldn [] (removeDeletedAndPruneL [] []).1,
        (removeDeletedAndPruneL [] []).2.1,
        true || (removeDeletedAndPruneL [] []).2.2) =
        (FolderT.mk lp lv lpr ldn [] [], [], true)
      rw [removeDeletedAndPruneL]
      rfl
    simp [chainFold, h2, FolderT.files, FolderT.folders]
| (p, v, pr, dn) :: ms, lp, lv, lpr, ldn, pf => by
    obtain ⟨ih1, ih2, ih3, ih4⟩ := chainFold_rdp ms lp lv lpr ldn pf
    have hrf : removeListed ([] : List FileN) [pf] = ([], [pf], false) := by
      rw [removeListed]
    have hL : removeDeletedAndPruneL
        [chainFold ms (FolderT.mk lp lv lpr ldn [pf] [])] [pf] =
        ([], [], true) := by
      rw [removeDeletedAndPruneL, ih1, ih2, ih3, ih4,
        removeDeletedAndPruneL]
      simp
    simp only [chainFold]
    rw [removeDeletedAndPrune, hrf, hL]
    exact ⟨rfl, rfl, rfl, rfl⟩

theorem removeDeletedAndPruneL_chain_cons
    (ms : List (Path × Bool × Int × Path)) (lp : Path) (lv : Bool)
    (lpr : Int) (ldn : Path) (pf : FileN) (sub₂ : List FolderT) :
    removeDeletedAndPruneL
      (chainFold ms (FolderT.mk lp lv lpr ldn [pf] []) :: sub₂) [pf] =
      (sub₂, [], true) := by
  obtain ⟨h1, h2, h3, h4⟩ := chainFold_rdp ms lp lv lpr ldn pf
  rw [removeDeletedAndPruneL, h1, h2, h3, h4, removeDeletedAndPruneL_nil]
  simp

/-- C2.  Running `buildTree` with a new file list equal to the current
recursive file list minus the one leaf file sitting at the bottom of an
otherwise-empty directory chain removes that file node and every ancestor
folder of it that has become empty of both files and folders, walking the
whole chain upward — but stops at, and never removes, the folder node
`buildTree` was invoked on (which keeps its other files and folders, and
survives even if it itself ends up empty). -/
theorem buildTree_prunes_empty_chain (rp : Path) (v : Bool) (pr : Int)
    (dn : Path) (rfs : List FileN) (sub₁ sub₂ : List FolderT)
    (ms : List (Path × Bool × Int × Path)) (lp : Path) (lv : Bool)
    (lpr : Int) (ldn : Path) (pf : FileN) (fs2 : List FileN) (b : Path)
    (h1 : pf ∉ rfs) (h2 : pf ∉ recursiveFileNodesL sub₁)
    (hsame : List.Perm fs2 (List.erase
      (recursiveFileNodes (FolderT.mk rp v pr dn rfs
        (sub₁ ++ chainFold ms (FolderT.mk lp lv lpr ldn [pf] []) :: sub₂)))
      pf)) :
    buildTree (FolderT.mk rp v pr dn rfs
        (sub₁ ++ chainFold ms (FolderT.mk lp lv lpr ldn [pf] []) :: sub₂))
      fs2 b =
      FolderT.mk rp v pr dn rfs (sub₁ ++ sub₂) := by
  have hmem : pf ∈ recursiveFileNodes (FolderT.mk rp v pr dn rfs
      (sub₁ ++ chainFold ms (FolderT.mk lp lv lpr ldn [pf] []) :: sub₂)) := by
    simp [recursiveFileNodesL_append, recursiveFileNodes_chainFold]
  have hold := sortNodes_fileSortLe_sortedBy
    (recursiveFileNodes (FolderT.mk rp v pr dn rfs
      (sub₁ ++ chainFold ms (FolderT.mk lp lv lpr ldn [pf] []) :: sub₂)))
  have hpold : pf ∈ sortNodes fileSortLe
      (recursiveFileNodes (FolderT.mk rp v pr dn rfs
        (sub₁ ++ chainFold ms (FolderT.mk lp lv lpr ldn [pf] []) :: sub₂))) :=
    ((sortNodes_perm fileSortLe _).mem_iff).mpr hmem
  have hnew : sortNodes fileSortLe fs2 =
      (sortNodes fileSortLe (recursiveFileNodes (FolderT.mk rp v pr dn rfs
        (sub₁ ++ chainFold ms
          (FolderT.mk lp lv lpr ldn [pf] []) :: sub₂)))).erase pf := by
    refine sortedBy_sortByPath_eq_of_perm ?_
      (sortNodes_fileSortLe_sortedBy _) ?_
    · refine (sortNodes_perm _ _).trans (hsame.trans ?_)
      exact (List.Perm.erase pf (sortNodes_perm fileSortLe _)).symm
    · exact List.Pairwise.sublist (List.erase_sublist pf _) hold
  have hdiff : buildTreeDiff (FolderT.mk rp v pr dn rfs
      (sub₁ ++ chainFold ms (FolderT.mk lp lv lpr ldn [pf] []) :: sub₂))
      fs2 = ([pf], []) := by
    unfold buildTreeDiff
    rw [hnew]
    exact compareSortedLists_erase _ hold pf hpold
  show (removeDeletedAndPrune
      ((buildTreeDiff (FolderT.mk rp v pr dn rfs
        (sub₁ ++ chainFold ms (FolderT.mk lp lv lpr ldn [pf] []) :: sub₂))
          fs2).2.foldl
        (addFileToTree b)
        (FolderT.mk rp v pr dn rfs
          (sub₁ ++ chainFold ms (FolderT.mk lp lv lpr ldn [pf] []) :: sub₂)))
      (buildTreeDiff (FolderT.mk rp v pr dn rfs
        (sub₁ ++ chainFold ms (FolderT.mk lp lv lpr ldn [pf] []) :: sub₂))
          fs2).1).1 =
    FolderT.mk rp v pr dn rfs (sub₁ ++ sub₂)
  rw [hdiff]
  show (removeDeletedAndPrune (FolderT.mk rp v pr dn rfs
      (sub₁ ++ chainFold ms (FolderT.mk lp lv lpr ldn [pf] []) :: sub₂))
    [pf]).1 = FolderT.mk rp v pr dn rfs (sub₁ ++ sub₂)
  have hrf : removeListed rfs [pf] = (rfs, [pf], false) :=
    removeListed_no_hit rfs [pf]
      (fun f hf hfin => h1 (by rwa [List.mem_singleton.mp hfin] at hf))
  rw [removeDeletedAndPrune, hrf]
  show FolderT.mk rp v pr dn rfs (removeDeletedAndPruneL
      (sub₁ ++ chainFold ms (FolderT.mk lp lv lpr ldn [pf] []) :: sub₂)
      [pf]).1 = FolderT.mk rp v pr dn rfs (sub₁ ++ sub₂)
  rw [removeDeletedAndPruneL_append sub₁ _ [pf]
    (fun f hf hfin => h2 (by rwa [List.mem_singleton.mp hfin] at hf))]
  rw [removeDeletedAndPruneL_chain_cons]

/-- Witness for C2: removing `bFile`, the only file of the otherwise-empty
subdirectory `[1, 2]`, prunes that subdirectory while the invocation root
keeps `aFile`. -/
theorem buildTree_prunes_empty_chain_witness :
    buildTree (FolderT.mk [1] false 0 [1] [aFile]
        ([] ++ chainFold [] (FolderT.mk [1, 2] false 0 [2] [bFile] []) :: []))
      [aFile] [] = FolderT.mk [1] false 0 [1] [aFile] ([] ++ []) :=
  buildTree_prunes_empty_chain [1] false 0 [1] [aFile] [] [] [] [1, 2] false 0
    [2] bFile [aFile] [] (by decide) (by decide)
    (by
      have hrec : recursiveFileNodes (FolderT.mk [1] false 0 [1] [aFile]
          ([] ++ chainFold []
            (FolderT.mk [1, 2] false 0 [2] [bFile] []) :: [])) =
          [aFile, bFile] := by
        simp [chainFold]
      rw [hrec]
      decide)

end QtcNodes
